import Mathlib

/-!
# Verification of the update/vacuum subsystem of `Fragmenter/UpdelStorage.cpp`

A shallow embedding of the in-place update and vacuum code of the
insert-order fragmenter (`InsertOrderFragmenter::updateColumn`,
`vacuum_fixlen_rows`, `vacuum_varlen_rows`, `compactRows`,
`getVacuumOffsets`, `set_chunk_stats`, `UpdelRoll::commitUpdate`),
together with theorems settling the specification claims about it.

Buffers are modelled as Lean lists (`List Nat` for raw bytes, `List Int`
for typed element slots), in-place mutation as explicit state passing,
machine integers as `Int` with explicit two's-complement wrapping where
the width matters, and thrown C++ exceptions as an explicit result
constructor.  External collaborators that are not part of this
repository snapshot (the `Encoder`, `put_scalar` / `get_scalar` /
`put_null` / `set_minmax` of `Shared/TypedDataAccessors.h`,
`DecimalOverflowValidator`) are modelled from the specification text;
each such definition is marked `Modelled from the spec:` in its doc
comment.
-/

namespace UpdelStorage

/-! ## Byte-buffer primitives

`memmove buf dst src n` copies the range `[src, src + n)` of `buf` onto
`[dst, dst + n)`, with C `memmove` semantics: the source is read as if
through a temporary buffer, so overlapping ranges are allowed. -/

/-- C `memmove` on a list-modelled buffer. -/
def memmove (buf : List Nat) (dst src n : Nat) : List Nat :=
  buf.take dst ++ (buf.drop src).take n ++ buf.drop (dst + n)

theorem length_take_of_le {α} (l : List α) {n : Nat} (h : n ≤ l.length) :
    (l.take n).length = n := by
  simp [List.length_take]; omega

theorem memmove_length (buf : List Nat) (dst src n : Nat)
    (hdst : dst + n ≤ buf.length) (hsrc : src + n ≤ buf.length) :
    (memmove buf dst src n).length = buf.length := by
  simp only [memmove, List.length_append, List.length_take, List.length_drop]
  omega

theorem memmove_take_left (buf : List Nat) (dst src n k : Nat)
    (hdst : dst + n ≤ buf.length) (hk : k ≤ dst) :
    (memmove buf dst src n).take k = buf.take k := by
  unfold memmove
  rw [List.append_assoc, List.take_append_of_le_length
        (by rw [length_take_of_le buf (by omega)]; exact hk),
      List.take_take, min_eq_left hk]

theorem memmove_take_mid (buf : List Nat) (dst src n : Nat)
    (hdst : dst + n ≤ buf.length) (hsrc : src + n ≤ buf.length) :
    (memmove buf dst src n).take (dst + n) =
      buf.take dst ++ (buf.drop src).take n := by
  unfold memmove
  have hlen : (buf.take dst ++ (buf.drop src).take n).length = dst + n := by
    rw [List.length_append, length_take_of_le buf (by omega),
        length_take_of_le _ (by rw [List.length_drop]; omega)]
  rw [List.append_assoc, ← List.append_assoc,
      List.take_append_of_le_length (le_of_eq hlen.symm),
      List.take_of_length_le (le_of_eq hlen)]

theorem memmove_drop_take_mid (buf : List Nat) (dst src n : Nat)
    (hdst : dst + n ≤ buf.length) (hsrc : src + n ≤ buf.length) :
    ((memmove buf dst src n).drop dst).take n = (buf.drop src).take n := by
  unfold memmove
  rw [List.append_assoc, List.drop_append_eq_append_drop,
      List.drop_of_length_le (by rw [length_take_of_le _ (by omega)]),
      List.nil_append, length_take_of_le _ (by omega), Nat.sub_self,
      List.drop_zero,
      List.take_append_of_le_length
        (by rw [length_take_of_le _ (by rw [List.length_drop]; omega)]),
      List.take_take, min_self]

theorem memmove_drop_right (buf : List Nat) (dst src n k : Nat)
    (hdst : dst + n ≤ buf.length) (hsrc : src + n ≤ buf.length)
    (hk : dst + n ≤ k) :
    (memmove buf dst src n).drop k = buf.drop k := by
  unfold memmove
  have hlen : (buf.take dst ++ (buf.drop src).take n).length = dst + n := by
    rw [List.length_append, length_take_of_le buf (by omega),
        length_take_of_le _ (by rw [List.length_drop]; omega)]
  rw [List.drop_append_eq_append_drop, hlen,
      List.drop_of_length_le (by rw [hlen]; exact hk), List.nil_append,
      List.drop_drop]
  congr 1
  omega

/-! ## `InsertOrderFragmenter::vacuum_fixlen_rows`

`UpdelStorage.cpp` lines 540-574.  The buffer is a flat array of
`element_size`-byte rows; the loop walks the deleted-offset list with
two cursors `irow_of_blk_to_keep` / `irow_of_blk_to_fill` and
`memmove`s each surviving block toward the front.  In the source the
cursors are `int64_t`; since the `nrows_to_keep > 0` guard fails
exactly when `irow_to_vacuum - irow_of_blk_to_keep` is not positive,
truncated `Nat` subtraction produces the same branch and the same
positive value inside the branch, so the cursors are carried as `Nat`
here. -/

/-- Loop state of `vacuum_fixlen_rows`: the two row cursors, the running
byte count `nbytes_fix_data_to_keep`, and the data buffer. -/
structure FixState where
  keep : Nat
  fill : Nat
  nbytes : Nat
  data : List Nat
deriving Repr, DecidableEq

/-- One iteration of the `vacuum_fixlen_rows` loop body for row index
`irow` whose `irow_to_vacuum` is `irowToVacuum` (a deleted offset, or
`physicalNumTuples` on the final iteration). -/
def fixlenStep (esize : Nat) (st : FixState) (irowToVacuum : Nat) : FixState :=
  let nrowsToKeep := irowToVacuum - st.keep
  if 0 < nrowsToKeep then
    let nbytesToKeep := nrowsToKeep * esize
    let data' :=
      if st.fill ≠ st.keep then
        memmove st.data (st.fill * esize) (st.keep * esize) nbytesToKeep
      else st.data
    ⟨irowToVacuum + 1, st.fill + nrowsToKeep, st.nbytes + nbytesToKeep, data'⟩
  else
    ⟨irowToVacuum + 1, st.fill, st.nbytes, st.data⟩

/-- The `for (irow = 0; irow <= nrows_to_vacuum; irow++)` loop: one step
per deleted offset, then the `is_last_one` step with
`irow_to_vacuum = nrows_in_fragment`. -/
def vacuumFixlenLoop (esize nrowsInFragment : Nat) :
    FixState → List Nat → FixState
  | st, [] => fixlenStep esize st nrowsInFragment
  | st, d :: ds => vacuumFixlenLoop esize nrowsInFragment (fixlenStep esize st d) ds

/-- `InsertOrderFragmenter::vacuum_fixlen_rows` (lines 540-574): final
state of the two-cursor compaction; `.nbytes` is the returned
`nbytes_fix_data_to_keep`. -/
def vacuum_fixlen_rows (esize nrowsInFragment : Nat) (data : List Nat)
    (fragOffsets : List Nat) : FixState :=
  vacuumFixlenLoop esize nrowsInFragment ⟨0, 0, 0, data⟩ fragOffsets

/-- The bytes of row `r` in a fixed-length buffer. -/
def rowBytes (esize : Nat) (data : List Nat) (r : Nat) : List Nat :=
  (data.drop (r * esize)).take esize

/-- Concatenated bytes of the given rows, in list order. -/
def bytesOfRows (esize : Nat) (data : List Nat) (rs : List Nat) : List Nat :=
  rs.flatMap (rowBytes esize data)

/-- The surviving row indices: all rows of `[0, N)` not in the deleted
list, in increasing order. -/
def keptRows (N : Nat) (D : List Nat) : List Nat :=
  (List.range N).filter (fun r => decide (r ∉ D))

theorem bytesOfRows_append (esize : Nat) (data : List Nat) (rs₁ rs₂ : List Nat) :
    bytesOfRows esize data (rs₁ ++ rs₂) =
      bytesOfRows esize data rs₁ ++ bytesOfRows esize data rs₂ := by
  simp [bytesOfRows]

/-- A contiguous range of rows read off the buffer in one slice. -/
theorem slice_eq_bytesOfRows (esize : Nat) (data : List Nat) :
    ∀ (n b : Nat),
      (data.drop (b * esize)).take (n * esize) =
        bytesOfRows esize data (List.range' b n)
  | 0, b => by simp [bytesOfRows]
  | n + 1, b => by
    rw [List.range'_succ, bytesOfRows, List.flatMap_cons,
        show (n + 1) * esize = esize + n * esize by ring, List.take_add,
        List.drop_drop,
        show b * esize + esize = (b + 1) * esize by ring]
    exact congrArg (rowBytes esize data b ++ ·)
      (slice_eq_bytesOfRows esize data n (b + 1))

/-- Invariant of the fixlen compaction loop: after all deleted offsets
below `b` have been processed (`kept` being the surviving rows below
`b`, in order), the cursors, the byte counter, the compacted prefix and
the still-untouched suffix of the buffer are as stated. -/
structure FixInv (esize : Nat) (data0 : List Nat) (b : Nat) (kept : List Nat)
    (st : FixState) : Prop where
  hkeep : st.keep = b
  hfill : st.fill = kept.length
  hfb : kept.length ≤ b
  hnbytes : st.nbytes = kept.length * esize
  hlen : st.data.length = data0.length
  htake : st.data.take (kept.length * esize) = bytesOfRows esize data0 kept
  hdrop : st.data.drop (b * esize) = data0.drop (b * esize)

theorem fixlenStep_inv {esize : Nat} {data0 : List Nat} {b : Nat}
    {kept : List Nat} {st : FixState} (inv : FixInv esize data0 b kept st)
    {d : Nat} (hbd : b ≤ d) (hdlen : d * esize ≤ data0.length) :
    FixInv esize data0 (d + 1) (kept ++ List.range' b (d - b))
      (fixlenStep esize st d) := by
  obtain ⟨n, rfl⟩ : ∃ n, d = b + n := ⟨d - b, by omega⟩
  have hsub : b + n - b = n := by omega
  have hkb : kept.length ≤ b := inv.hfb
  have hdl : st.data.length = data0.length := inv.hlen
  rcases Nat.eq_zero_or_pos n with hn | hn
  · subst hn
    simp only [fixlenStep, inv.hkeep, Nat.add_zero, Nat.sub_self,
      Nat.lt_irrefl, if_false, List.range'_zero, List.append_nil]
    exact ⟨rfl, inv.hfill, by omega, inv.hnbytes, inv.hlen, inv.htake, by
      rw [show (b + 0 + 1) * esize = b * esize + esize by ring,
          ← List.drop_drop, ← List.drop_drop, inv.hdrop]⟩
  · have hklen : (kept ++ List.range' b n).length = kept.length + n := by
      simp
    have hfe : kept.length * esize + n * esize ≤ data0.length := by
      have : (kept.length + n) * esize ≤ (b + n) * esize :=
        Nat.mul_le_mul_right esize (by omega)
      calc kept.length * esize + n * esize = (kept.length + n) * esize := by ring
        _ ≤ (b + n) * esize := this
        _ ≤ data0.length := hdlen
    have hbe : b * esize + n * esize ≤ data0.length := by
      calc b * esize + n * esize = (b + n) * esize := by ring
        _ ≤ data0.length := hdlen
    have hfinal : kept.length * esize + n * esize ≤ (b + n + 1) * esize := by
      have : (kept.length + n) * esize ≤ (b + n + 1) * esize :=
        Nat.mul_le_mul_right esize (by omega)
      calc kept.length * esize + n * esize = (kept.length + n) * esize := by ring
        _ ≤ (b + n + 1) * esize := this
    -- the new compacted prefix: old survivors then the block [b, b+n)
    have hnewtake : ∀ data' : List Nat,
        data'.take (kept.length * esize) = bytesOfRows esize data0 kept →
        (data'.drop (kept.length * esize)).take (n * esize) =
          (data0.drop (b * esize)).take (n * esize) →
        data'.take ((kept.length + n) * esize) =
          bytesOfRows esize data0 (kept ++ List.range' b n) := by
      intro data' h1 h2
      rw [show (kept.length + n) * esize = kept.length * esize + n * esize by ring,
          List.take_add, h1, h2, slice_eq_bytesOfRows, bytesOfRows_append]
    simp only [fixlenStep, inv.hkeep, inv.hfill, hsub, if_pos hn]
    by_cases hfillkeep : kept.length ≠ b
    · simp only [if_pos hfillkeep]
      have hmlen : (memmove st.data (kept.length * esize) (b * esize)
          (n * esize)).length = data0.length := by
        rw [memmove_length _ _ _ _ (by omega) (by omega), hdl]
      refine ⟨rfl, by rw [hklen], by omega, by rw [hklen, inv.hnbytes]; ring, hmlen, ?_, ?_⟩
      · rw [hklen]
        refine hnewtake _ ?_ ?_
        · rw [← inv.htake]
          calc (memmove st.data (kept.length * esize) (b * esize)
                  (n * esize)).take (kept.length * esize)
              = ((memmove st.data (kept.length * esize) (b * esize)
                  (n * esize)).take (kept.length * esize + n * esize)).take
                  (kept.length * esize) := by
                rw [List.take_take, min_eq_left (by omega)]
            _ = st.data.take (kept.length * esize) := by
                rw [memmove_take_mid _ _ _ _ (by omega) (by omega),
                    List.take_append_of_le_length
                      (by rw [length_take_of_le _ (by omega)]),
                    List.take_take, min_self]
        · dsimp only
          rw [memmove_drop_take_mid _ _ _ _ (by omega) (by omega), inv.hdrop]
      · -- bytes from row b + n + 1 on are still the original ones
        dsimp only
        rw [memmove_drop_right _ _ _ _ _ (by omega) (by omega) hfinal,
            show (b + n + 1) * esize = b * esize + (n * esize + esize) by ring,
            ← List.drop_drop, ← List.drop_drop, inv.hdrop,
            List.drop_drop, List.drop_drop]
    · simp only [if_neg hfillkeep]
      have heq : kept.length = b := not_ne_iff.mp hfillkeep
      refine ⟨rfl, by rw [hklen], by omega, by rw [hklen, inv.hnbytes]; ring,
        inv.hlen, ?_, ?_⟩
      · rw [hklen]
        refine hnewtake _ inv.htake ?_
        rw [heq, inv.hdrop]
      · rw [show (b + n + 1) * esize = b * esize + (n * esize + esize) by ring,
            ← List.drop_drop, ← List.drop_drop, inv.hdrop,
            List.drop_drop, List.drop_drop]

/-- A strictly increasing list bounded by `[b, N)` has at most `N - b`
elements. -/
theorem sorted_bounded_length :
    ∀ (ds : List Nat) (b N : Nat), ds.Pairwise (· < ·) →
      (∀ d ∈ ds, b ≤ d ∧ d < N) → ds.length ≤ N - b
  | [], _, _, _, _ => by simp
  | d :: ds, b, N, hp, hmem => by
    have hd := hmem d (by simp)
    have ih := sorted_bounded_length ds (d + 1) N (hp.sublist (by simp))
      (fun x hx => ⟨(List.pairwise_cons.mp hp).1 x hx, (hmem x (by simp [hx])).2⟩)
    simp only [List.length_cons]
    omega

/-- Splitting a filtered range at the least deleted offset. -/
theorem filter_range'_split (b d N : Nat) (ds : List Nat) (hbd : b ≤ d)
    (hdN : d < N) (hgt : ∀ x ∈ ds, d < x) :
    (List.range' b (N - b)).filter (fun r => decide (r ∉ (d :: ds))) =
      List.range' b (d - b) ++
        (List.range' (d + 1) (N - (d + 1))).filter (fun r => decide (r ∉ ds)) := by
  have hsplit : List.range' b (N - b) =
      List.range' b (d - b) ++ (d :: List.range' (d + 1) (N - (d + 1))) := by
    rw [← List.range'_succ]
    have := List.range'_append b (d - b) (N - d) 1
    simp only [Nat.mul_one, Nat.one_mul] at this
    rw [show b + (d - b) = d by omega] at this
    rw [show N - d = (N - (d+1)) + 1 by omega] at this
    rw [this]
    congr 1
    omega
  rw [hsplit, List.filter_append]
  congr 1
  · apply List.filter_eq_self.mpr
    intro r hr
    have hrd : r < d := by
      have := List.mem_range'_1.mp hr
      omega
    simp only [decide_eq_true_eq, List.mem_cons]
    push_neg
    exact ⟨by omega, fun hx => absurd (hgt r hx) (by omega)⟩
  · rw [List.filter_cons_of_neg (by simp)]
    apply List.filter_congr
    intro r hr
    have hrd : d + 1 ≤ r := (List.mem_range'_1.mp hr).1
    rw [decide_eq_decide]
    simp only [List.mem_cons]
    constructor
    · intro h; exact fun hx => h (Or.inr hx)
    · rintro h (rfl | hx)
      · omega
      · exact h hx

/-- Length of the surviving part of a range. -/
theorem filter_range'_length :
    ∀ (ds : List Nat) (b N : Nat), ds.Pairwise (· < ·) →
      (∀ d ∈ ds, b ≤ d ∧ d < N) → b ≤ N →
      ((List.range' b (N - b)).filter (fun r => decide (r ∉ ds))).length =
        (N - b) - ds.length
  | [], b, N, _, _, _ => by
    rw [List.filter_eq_self.mpr (by simp)]
    simp
  | d :: ds, b, N, hp, hmem, hbN => by
    have hd := hmem d (by simp)
    have hgt := (List.pairwise_cons.mp hp).1
    rw [filter_range'_split b d N ds hd.1 hd.2 hgt, List.length_append,
        List.length_range',
        filter_range'_length ds (d + 1) N (hp.sublist (by simp))
          (fun x hx => ⟨hgt x hx, (hmem x (by simp [hx])).2⟩) (by omega)]
    have hlen := sorted_bounded_length ds (d + 1) N (hp.sublist (by simp))
      (fun x hx => ⟨hgt x hx, (hmem x (by simp [hx])).2⟩)
    simp only [List.length_cons]
    omega

theorem vacuumFixlenLoop_inv (esize : Nat) (data0 : List Nat) (N : Nat)
    (hN : N * esize ≤ data0.length) :
    ∀ (ds : List Nat) (b : Nat) (kept : List Nat) (st : FixState),
      ds.Pairwise (· < ·) → (∀ d ∈ ds, b ≤ d ∧ d < N) → b ≤ N →
      FixInv esize data0 b kept st →
      FixInv esize data0 (N + 1)
        (kept ++ (List.range' b (N - b)).filter (fun r => decide (r ∉ ds)))
        (vacuumFixlenLoop esize N st ds)
  | [], b, kept, st, _, _, hbN, inv => by
    rw [List.filter_eq_self.mpr (by simp)]
    exact fixlenStep_inv inv hbN hN
  | d :: ds, b, kept, st, hp, hmem, hbN, inv => by
    have hd := hmem d (by simp)
    have hgt := (List.pairwise_cons.mp hp).1
    rw [filter_range'_split b d N ds hd.1 hd.2 hgt, ← List.append_assoc]
    exact vacuumFixlenLoop_inv esize data0 N hN ds (d + 1)
      (kept ++ List.range' b (d - b)) (fixlenStep esize st d)
      (hp.sublist (by simp))
      (fun x hx => ⟨hgt x hx, (hmem x (by simp [hx])).2⟩) (by omega)
      (fixlenStep_inv inv hd.1
        (le_trans (Nat.mul_le_mul_right esize (le_of_lt hd.2)) hN))

/-- Buffer-bookkeeping part of the `fixlen_vacuum` lambda of
`compactRows` (lines 665-706): run `vacuum_fixlen_rows`, then
`encoder->setNumElems(nrows_to_keep)` and
`data_buffer->setSize(nbytes_fix_data_to_keep)`; `set_chunk_metadata`
(lines 519-538) records exactly these two numbers in the shadow
metadata. -/
structure FixVacResult where
  data : List Nat
  numElements : Nat
  numBytes : Nat
deriving Repr, DecidableEq

def fixlen_vacuum (esize nrowsInFragment : Nat) (data fragOffsets : List Nat) :
    FixVacResult :=
  let st := vacuum_fixlen_rows esize nrowsInFragment data fragOffsets
  ⟨st.data, nrowsInFragment - fragOffsets.length, st.nbytes⟩

/-- C1: for every fragment with `N` rows and every strictly increasing
in-range deleted-offset list `D` on a fixed-length column,
`vacuum_fixlen_rows` rewrites the buffer so that its first
`(N - |D|) * esize` bytes are the surviving rows' bytes concatenated in
their original order, returns that surviving byte count
(`nbytes_fix_data_to_keep`), leaves the buffer length unchanged, and
the `fixlen_vacuum` driver records `numElements = N - |D|` and
`numBytes = (N - |D|) * esize`. -/
theorem vacuum_fixlen_rows_correct (esize N : Nat) (data D : List Nat)
    (hsorted : D.Pairwise (· < ·)) (hrange : ∀ d ∈ D, d < N)
    (hlen : data.length = N * esize) :
    (vacuum_fixlen_rows esize N data D).nbytes = (N - D.length) * esize ∧
    (vacuum_fixlen_rows esize N data D).data.take ((N - D.length) * esize) =
      bytesOfRows esize data (keptRows N D) ∧
    (vacuum_fixlen_rows esize N data D).data.length = data.length ∧
    (fixlen_vacuum esize N data D).numElements = N - D.length ∧
    (fixlen_vacuum esize N data D).numBytes = (N - D.length) * esize := by
  have inv0 : FixInv esize data 0 [] ⟨0, 0, 0, data⟩ :=
    ⟨rfl, rfl, Nat.le_refl 0, by simp, rfl, by simp [bytesOfRows], by simp⟩
  have hfin := vacuumFixlenLoop_inv esize data N (le_of_eq hlen.symm) D 0 []
    ⟨0, 0, 0, data⟩ hsorted (fun d hd => ⟨Nat.zero_le d, hrange d hd⟩)
    (Nat.zero_le N) inv0
  rw [List.nil_append, Nat.sub_zero, ← List.range_eq_range'] at hfin
  have hkr : (List.range N).filter (fun r => decide (r ∉ D)) = keptRows N D := rfl
  rw [hkr] at hfin
  have hklen : (keptRows N D).length = N - D.length := by
    have := filter_range'_length D 0 N hsorted
      (fun d hd => ⟨Nat.zero_le d, hrange d hd⟩) (Nat.zero_le N)
    rw [Nat.sub_zero, ← List.range_eq_range', hkr] at this
    exact this
  have h1 : (vacuum_fixlen_rows esize N data D).nbytes =
      (N - D.length) * esize := by
    rw [show vacuum_fixlen_rows esize N data D =
          vacuumFixlenLoop esize N ⟨0, 0, 0, data⟩ D from rfl,
        hfin.hnbytes, hklen]
  have h2 : (vacuum_fixlen_rows esize N data D).data.take
      ((N - D.length) * esize) = bytesOfRows esize data (keptRows N D) := by
    rw [show vacuum_fixlen_rows esize N data D =
          vacuumFixlenLoop esize N ⟨0, 0, 0, data⟩ D from rfl,
        ← hklen]
    exact hfin.htake
  exact ⟨h1, h2, hfin.hlen, rfl, h1⟩

theorem vacuum_fixlen_rows_correct_witness :
    (List.Pairwise (· < ·) [1, 3] ∧ (∀ d ∈ [1, 3], d < 5) ∧
      ((List.range 5).flatMap fun r => List.replicate 8 (r + 1)).length = 5 * 8) ∧
    ((vacuum_fixlen_rows 8 5
        ((List.range 5).flatMap fun r => List.replicate 8 (r + 1))
        [1, 3]).nbytes = (5 - [1, 3].length) * 8 ∧
      (vacuum_fixlen_rows 8 5
        ((List.range 5).flatMap fun r => List.replicate 8 (r + 1))
        [1, 3]).data.take ((5 - [1, 3].length) * 8) =
        bytesOfRows 8 ((List.range 5).flatMap fun r => List.replicate 8 (r + 1))
          (keptRows 5 [1, 3]) ∧
      (vacuum_fixlen_rows 8 5
        ((List.range 5).flatMap fun r => List.replicate 8 (r + 1))
        [1, 3]).data.length =
        ((List.range 5).flatMap fun r => List.replicate 8 (r + 1)).length ∧
      (fixlen_vacuum 8 5
        ((List.range 5).flatMap fun r => List.replicate 8 (r + 1))
        [1, 3]).numElements = 5 - [1, 3].length ∧
      (fixlen_vacuum 8 5
        ((List.range 5).flatMap fun r => List.replicate 8 (r + 1))
        [1, 3]).numBytes = (5 - [1, 3].length) * 8) ∧
    -- the spec's concrete scenario: `BIGINT` rows A..E = 1..5, deleting
    -- offsets 1 and 3 keeps [A, C, E], numElements 3, numBytes 24
    (fixlen_vacuum 8 5 ((List.range 5).flatMap fun r => List.replicate 8 (r + 1))
        [1, 3]).data.take 24 =
      List.replicate 8 1 ++ List.replicate 8 3 ++ List.replicate 8 5 ∧
    (fixlen_vacuum 8 5 ((List.range 5).flatMap fun r => List.replicate 8 (r + 1))
        [1, 3]).numElements = 3 ∧
    (fixlen_vacuum 8 5 ((List.range 5).flatMap fun r => List.replicate 8 (r + 1))
        [1, 3]).numBytes = 24 :=
  ⟨⟨by decide, by decide, by decide⟩,
    vacuum_fixlen_rows_correct 8 5
      ((List.range 5).flatMap fun r => List.replicate 8 (r + 1)) [1, 3]
      (by decide) (by decide) (by decide),
    by decide, by decide, by decide⟩

/-! ## `InsertOrderFragmenter::vacuum_varlen_rows`

`UpdelStorage.cpp` lines 576-630 and the `varlen_vacuum` lambda of
`compactRows` (lines 708-730).  A variable-length chunk has a data
buffer and a `StringOffsetT` offset (index) array; the loop compacts
both with the same two-cursor scheme, additionally rebasing the
offsets of each retained block.  The index buffer is modelled at entry
granularity: the C++ `memmove` of `nrows_to_keep * sizeof(StringOffsetT)`
bytes moves exactly `nrows_to_keep` whole entries, and every other
index access is through typed `index_array[i]` reads/writes. -/

/-- `sizeof(StringOffsetT)` (a 32-bit offset). -/
def indexElementSize : Nat := 4

/-- Typed read `index_array[i]`. -/
def idxGet (index : List Nat) (i : Nat) : Nat := index.getD i 0

/-- The in-place rebase loop
`index_array[keep + i] = ibyte + (index_array[keep + i] - index_base)`
for `i ∈ [0, n)`.  Each entry is read and written exactly once, so the
loop is this pointwise map over the entries. -/
def rewriteIndex (ibyte base keep n : Nat) (index : List Nat) : List Nat :=
  index.enum.map fun p =>
    if keep ≤ p.1 ∧ p.1 < keep + n then ibyte + (p.2 - base) else p.2

/-- Loop state of `vacuum_varlen_rows`: the two row cursors, the two
byte counters, the data buffer, and the offset array. -/
structure VarState where
  keep : Nat
  fill : Nat
  nbytesFix : Nat
  nbytesVar : Nat
  data : List Nat
  index : List Nat
deriving Repr, DecidableEq

/-- One iteration of the `vacuum_varlen_rows` loop body.  `origSize` is
`data_buffer->size()` (unchanged while the loop runs; the driver only
calls `setSize` afterwards).  As in the fixlen loop the `int64_t`
cursors are carried as `Nat`, the `nrows_to_keep > 0` guard making
truncated subtraction equivalent. -/
def varlenStep (origSize : Nat) (isLast : Bool) (st : VarState)
    (irowToVacuum : Nat) : VarState :=
  let nrowsToKeep := irowToVacuum - st.keep
  if 0 < nrowsToKeep then
    let ibyteVarDataToKeep := st.nbytesVar
    let nbytesToKeep :=
      (if isLast then origSize else idxGet st.index irowToVacuum) -
        idxGet st.index st.keep
    let data' :=
      if st.fill ≠ st.keep then
        memmove st.data ibyteVarDataToKeep (idxGet st.index st.keep) nbytesToKeep
      else st.data
    let index₁ :=
      if st.fill ≠ st.keep then
        rewriteIndex ibyteVarDataToKeep (idxGet st.index st.keep) st.keep
          nrowsToKeep st.index
      else st.index
    let index₂ :=
      if st.fill ≠ st.keep then memmove index₁ st.fill st.keep nrowsToKeep
      else index₁
    ⟨irowToVacuum + 1, st.fill + nrowsToKeep,
      st.nbytesFix + nrowsToKeep * indexElementSize,
      st.nbytesVar + nbytesToKeep, data', index₂⟩
  else
    { st with keep := irowToVacuum + 1 }

/-- The `for (irow = 0; irow <= nrows_to_vacuum; irow++)` loop. -/
def vacuumVarlenLoop (origSize nrowsInFragment : Nat) :
    VarState → List Nat → VarState
  | st, [] => varlenStep origSize true st nrowsInFragment
  | st, d :: ds =>
    vacuumVarlenLoop origSize nrowsInFragment (varlenStep origSize false st d) ds

/-- `InsertOrderFragmenter::vacuum_varlen_rows` (lines 576-630);
`.nbytesVar` is the returned `nbytes_var_data_to_keep`. -/
def vacuum_varlen_rows (nrowsInFragment : Nat) (data index fragOffsets : List Nat) :
    VarState :=
  vacuumVarlenLoop data.length nrowsInFragment ⟨0, 0, 0, 0, data, index⟩ fragOffsets

/-- Result of the `varlen_vacuum` lambda: both buffers, the sizes set by
`data_buffer->setSize` / `index_buffer->setSize`, and the element count
given to `encoder->setNumElems` and `set_chunk_metadata`. -/
structure VarVacResult where
  data : List Nat
  index : List Nat
  dataSize : Nat
  indexSize : Nat
  numElements : Nat
deriving Repr, DecidableEq

/-- The `varlen_vacuum` lambda of `compactRows` (lines 708-730): run
`vacuum_varlen_rows`, set the data buffer size to the surviving byte
count, write the terminal sentinel
`index_array[nrows_to_keep] = data_buffer->size()`, and set the index
buffer size to `sizeof(StringOffsetT) * (nrows_to_keep ? 1 + nrows_to_keep : 0)`. -/
def varlen_vacuum (nrowsInFragment : Nat) (data index fragOffsets : List Nat) :
    VarVacResult :=
  let nrowsToKeep := nrowsInFragment - fragOffsets.length
  let st := vacuum_varlen_rows nrowsInFragment data index fragOffsets
  ⟨st.data, st.index.set nrowsToKeep st.nbytesVar, st.nbytesVar,
    indexElementSize * (if nrowsToKeep ≠ 0 then 1 + nrowsToKeep else 0),
    nrowsToKeep⟩

/-! ### Ground truth for a well-formed variable-length chunk

A chunk whose logical content is the row payload list `rows` has
`data = rows.flatten` and offset array
`offset[i] = (rows.take i).flatten.length` for `i ∈ [0, N]`. -/

/-- Byte offset of row `i`: total length of the payloads before it. -/
def cumLen (rows : List (List Nat)) (i : Nat) : Nat :=
  ((rows.take i).flatten).length

/-- The offset array of a well-formed variable-length chunk. -/
def offsetsOf (rows : List (List Nat)) : List Nat :=
  (List.range (rows.length + 1)).map (cumLen rows)

/-- Payload of row `r`. -/
def rowAt (rows : List (List Nat)) (r : Nat) : List Nat := rows.getD r []

/-- Concatenated payloads of the given rows, in list order. -/
def payloadOf (rows : List (List Nat)) (rs : List Nat) : List Nat :=
  (rs.map (rowAt rows)).flatten

theorem payloadOf_append (rows : List (List Nat)) (rs₁ rs₂ : List Nat) :
    payloadOf rows (rs₁ ++ rs₂) = payloadOf rows rs₁ ++ payloadOf rows rs₂ := by
  simp [payloadOf]

theorem cumLen_mono (rows : List (List Nat)) {i j : Nat} (h : i ≤ j) :
    cumLen rows i ≤ cumLen rows j := by
  unfold cumLen
  rw [show j = i + (j - i) by omega, List.take_add, List.flatten_append,
      List.length_append]
  exact Nat.le_add_right _ _

theorem cumLen_length (rows : List (List Nat)) :
    cumLen rows rows.length = rows.flatten.length := by
  unfold cumLen
  rw [List.take_of_length_le (le_refl _)]

theorem cumLen_le_flatten (rows : List (List Nat)) (i : Nat) :
    cumLen rows i ≤ rows.flatten.length := by
  rcases Nat.le_total i rows.length with h | h
  · rw [← cumLen_length rows]; exact cumLen_mono rows h
  · unfold cumLen
    rw [List.take_of_length_le h]

theorem offsetsOf_length (rows : List (List Nat)) :
    (offsetsOf rows).length = rows.length + 1 := by
  simp [offsetsOf]

theorem idxGet_offsetsOf (rows : List (List Nat)) {i : Nat}
    (h : i ≤ rows.length) :
    idxGet (offsetsOf rows) i = cumLen rows i := by
  unfold idxGet offsetsOf
  rw [List.getD_eq_getElem?_getD, List.getElem?_map,
      List.getElem?_range (by omega)]
  rfl

theorem map_rowAt_range' (rows : List (List Nat)) :
    ∀ (n b : Nat), b + n ≤ rows.length →
      (List.range' b n).map (rowAt rows) = (rows.drop b).take n
  | 0, b, _ => by simp
  | n + 1, b, h => by
    rw [List.range'_succ, List.map_cons,
        map_rowAt_range' rows n (b + 1) (by omega),
        List.drop_eq_getElem_cons (show b < rows.length by omega)]
    simp only [List.take_succ_cons, List.cons.injEq, and_true]
    unfold rowAt
    rw [List.getD_eq_getElem?_getD, List.getElem?_eq_getElem (by omega)]
    rfl

theorem cumLen_add_seg (rows : List (List Nat)) (b n : Nat) :
    cumLen rows (b + n) =
      cumLen rows b + ((rows.drop b).take n).flatten.length := by
  unfold cumLen
  rw [List.take_add, List.flatten_append, List.length_append]

theorem flatten_drop_cumLen (rows : List (List Nat)) (b : Nat) :
    rows.flatten.drop (cumLen rows b) = (rows.drop b).flatten := by
  have h : rows.flatten = (rows.take b).flatten ++ (rows.drop b).flatten := by
    rw [← List.flatten_append, List.take_append_drop]
  rw [h, cumLen, List.drop_append_eq_append_drop,
      List.drop_of_length_le (le_refl _), List.nil_append, Nat.sub_self,
      List.drop_zero]

theorem flatten_take_flatten_length (l : List (List Nat)) (n : Nat) :
    l.flatten.take ((l.take n).flatten.length) = (l.take n).flatten := by
  have h : l.flatten = (l.take n).flatten ++ (l.drop n).flatten := by
    rw [← List.flatten_append, List.take_append_drop]
  rw [h, List.take_append_of_le_length (le_refl _),
      List.take_of_length_le (le_refl _)]

/-- Slice of the flat data buffer corresponding to rows `[b, b + n)`. -/
theorem flatten_slice (rows : List (List Nat)) (b n : Nat) :
    (rows.flatten.drop (cumLen rows b)).take
        (((rows.drop b).take n).flatten.length) =
      ((rows.drop b).take n).flatten := by
  rw [flatten_drop_cumLen]
  exact flatten_take_flatten_length (rows.drop b) n

/-- If two lists agree from position `a` on, they agree from any later
position on. -/
theorem drop_congr_of_le {l l0 : List Nat} {a x : Nat}
    (h : l.drop a = l0.drop a) (hax : a ≤ x) : l.drop x = l0.drop x := by
  rw [show x = a + (x - a) by omega, ← List.drop_drop, h, List.drop_drop]

/-! ### Pointwise reads through `memmove` and `rewriteIndex` -/

theorem getD_take {l : List Nat} {k j : Nat} (h : j < k) :
    (l.take k).getD j 0 = l.getD j 0 := by
  rw [List.getD_eq_getElem?_getD, List.getD_eq_getElem?_getD,
      List.getElem?_take, if_pos h]

theorem getD_memmove_left {l : List Nat} {dst src n j : Nat}
    (hdst : dst + n ≤ l.length) (hj : j < dst) :
    (memmove l dst src n).getD j 0 = l.getD j 0 := by
  rw [← getD_take (l := memmove l dst src n) hj,
      memmove_take_left l dst src n dst hdst (le_refl dst), getD_take hj]

theorem getD_memmove_mid {l : List Nat} {dst src n i : Nat}
    (hdst : dst + n ≤ l.length) (hsrc : src + n ≤ l.length) (hi : i < n) :
    (memmove l dst src n).getD (dst + i) 0 = l.getD (src + i) 0 := by
  have h1 : (memmove l dst src n).getD (dst + i) 0 =
      ((memmove l dst src n).take (dst + n)).getD (dst + i) 0 :=
    (getD_take (by omega)).symm
  rw [h1, memmove_take_mid l dst src n hdst hsrc]
  rw [List.getD_eq_getElem?_getD,
      List.getElem?_append_right
        (by rw [length_take_of_le _ (by omega)]; omega),
      length_take_of_le _ (by omega), Nat.add_sub_cancel_left,
      ← List.getD_eq_getElem?_getD, getD_take hi, List.getD_eq_getElem?_getD,
      List.getElem?_drop, ← List.getD_eq_getElem?_getD]

theorem getD_memmove_right {l : List Nat} {dst src n j : Nat}
    (hdst : dst + n ≤ l.length) (hsrc : src + n ≤ l.length)
    (hj : dst + n ≤ j) :
    (memmove l dst src n).getD j 0 = l.getD j 0 := by
  have h := memmove_drop_right l dst src n j hdst hsrc hj
  have h1 : ∀ (m : List Nat) (k : Nat), m.getD k 0 = (m.drop k).getD 0 0 := by
    intro m k
    rw [List.getD_eq_getElem?_getD, List.getD_eq_getElem?_getD,
        List.getElem?_drop, Nat.add_zero]
  rw [h1 _ j, h, ← h1]

theorem rewriteIndex_length (ibyte base keep n : Nat) (index : List Nat) :
    (rewriteIndex ibyte base keep n index).length = index.length := by
  simp [rewriteIndex]

theorem getD_rewriteIndex_in {ibyte base keep n : Nat} {index : List Nat}
    {j : Nat} (hj : keep ≤ j ∧ j < keep + n) (hlen : j < index.length) :
    (rewriteIndex ibyte base keep n index).getD j 0 =
      ibyte + (index.getD j 0 - base) := by
  unfold rewriteIndex
  rw [List.getD_eq_getElem?_getD, List.getElem?_map, List.getElem?_enum,
      List.getElem?_eq_getElem hlen]
  simp only [Option.map_some', Option.getD_some]
  rw [if_pos hj, List.getD_eq_getElem?_getD, List.getElem?_eq_getElem hlen]
  rfl

theorem getD_rewriteIndex_out {ibyte base keep n : Nat} {index : List Nat}
    {j : Nat} (hj : ¬(keep ≤ j ∧ j < keep + n)) :
    (rewriteIndex ibyte base keep n index).getD j 0 = index.getD j 0 := by
  rcases Nat.lt_or_ge j index.length with hlen | hlen
  · unfold rewriteIndex
    rw [List.getD_eq_getElem?_getD, List.getElem?_map, List.getElem?_enum,
        List.getElem?_eq_getElem hlen]
    simp only [Option.map_some', Option.getD_some]
    rw [if_neg hj, List.getD_eq_getElem?_getD, List.getElem?_eq_getElem hlen]
    rfl
  · rw [List.getD_eq_getElem?_getD, List.getD_eq_getElem?_getD,
        List.getElem?_eq_none (by rw [rewriteIndex_length]; exact hlen),
        List.getElem?_eq_none hlen]

theorem take_range' (b n i : Nat) :
    (List.range' b n).take i = List.range' b (min i n) := by
  rw [List.range'_eq_map_range, ← List.map_take, List.take_range,
      List.range'_eq_map_range]

/-- Invariant of the varlen compaction loop: after all deleted offsets
below `b` have been processed (`keptR` being the surviving rows below
`b`, in order), the cursors, the byte counter, both buffers' compacted
prefixes and still-untouched suffixes are as stated. -/
structure VarInv (rows : List (List Nat)) (b : Nat) (keptR : List Nat)
    (st : VarState) : Prop where
  hkeep : st.keep = b
  hfill : st.fill = keptR.length
  hfb : keptR.length ≤ b
  hnv : st.nbytesVar = (payloadOf rows keptR).length
  hnvle : st.nbytesVar ≤ cumLen rows b
  hdlen : st.data.length = rows.flatten.length
  hdtake : st.data.take st.nbytesVar = payloadOf rows keptR
  hddrop : st.data.drop (cumLen rows b) = rows.flatten.drop (cumLen rows b)
  hilen : st.index.length = rows.length + 1
  hifront : ∀ j < keptR.length,
    idxGet st.index j = (payloadOf rows (keptR.take j)).length
  hiback : ∀ j, b ≤ j → idxGet st.index j = idxGet (offsetsOf rows) j
  hall : keptR.length = b → keptR = List.range' 0 b

theorem varlenStep_inv {rows : List (List Nat)} {b : Nat} {keptR : List Nat}
    {st : VarState} (inv : VarInv rows b keptR st)
    {origSize : Nat} {isLast : Bool} {d : Nat} (hbd : b ≤ d)
    (hdN : d ≤ rows.length)
    (hcap : (if isLast then origSize else idxGet st.index d) = cumLen rows d) :
    VarInv rows (d + 1) (keptR ++ List.range' b (d - b))
      (varlenStep origSize isLast st d) := by
  obtain ⟨n, rfl⟩ : ∃ n, d = b + n := ⟨d - b, by omega⟩
  have hsub : b + n - b = n := by omega
  have hkb : keptR.length ≤ b := inv.hfb
  rcases Nat.eq_zero_or_pos n with hn | hn
  · subst hn
    simp only [varlenStep, inv.hkeep, Nat.add_zero, Nat.sub_self,
      Nat.lt_irrefl, if_false, List.range'_zero, List.append_nil]
    exact ⟨rfl, inv.hfill, by omega, inv.hnv,
      le_trans inv.hnvle (cumLen_mono rows (by omega)), inv.hdlen, inv.hdtake,
      drop_congr_of_le inv.hddrop (cumLen_mono rows (by omega)),
      inv.hilen, inv.hifront, fun j hj => inv.hiback j (by omega),
      fun h => absurd inv.hfb (by omega)⟩
  · -- abbreviations for the segment [b, b + n)
    have hbnN : b + n ≤ rows.length := hdN
    have hib : idxGet st.index b = cumLen rows b :=
      (inv.hiback b (le_refl b)).trans (idxGet_offsetsOf rows (by omega))
    have hseg : cumLen rows (b + n) =
        cumLen rows b + ((rows.drop b).take n).flatten.length :=
      cumLen_add_seg rows b n
    have hcd_le : cumLen rows (b + n) ≤ rows.flatten.length :=
      cumLen_le_flatten rows (b + n)
    have hnbk : (if isLast then origSize else idxGet st.index (b + n)) -
        idxGet st.index b = ((rows.drop b).take n).flatten.length := by
      rw [hcap, hib]; omega
    have hpayseg : payloadOf rows (List.range' b n) =
        ((rows.drop b).take n).flatten := by
      unfold payloadOf
      rw [map_rowAt_range' rows n b hbnN]
    have hklen' : (keptR ++ List.range' b n).length = keptR.length + n := by
      simp
    have hpay' : payloadOf rows (keptR ++ List.range' b n) =
        payloadOf rows keptR ++ ((rows.drop b).take n).flatten := by
      rw [payloadOf_append, hpayseg]
    have hnv' : st.nbytesVar + ((rows.drop b).take n).flatten.length =
        (payloadOf rows (keptR ++ List.range' b n)).length := by
      rw [hpay', List.length_append, inv.hnv]
    -- payload length of a partial prefix of the new block
    have hpartial : ∀ i ≤ n,
        (payloadOf rows ((keptR ++ List.range' b n).take (keptR.length + i))).length =
          st.nbytesVar + ((rows.drop b).take i).flatten.length := by
      intro i hi
      rw [List.take_append_eq_append_take,
          List.take_of_length_le (by omega), Nat.add_sub_cancel_left,
          take_range', min_eq_left hi, payloadOf_append, List.length_append,
          inv.hnv]
      congr 1
      unfold payloadOf
      rw [map_rowAt_range' rows i b (by omega)]
    simp only [varlenStep, inv.hkeep, inv.hfill, hsub, if_pos hn, hnbk]
    by_cases hfillkeep : keptR.length ≠ b
    · have hkltb : keptR.length < b := lt_of_le_of_ne hkb hfillkeep
      simp only [if_pos hfillkeep, hib]
      -- bounds for the data memmove
      have hdb1 : st.nbytesVar + ((rows.drop b).take n).flatten.length ≤
          st.data.length := by
        rw [inv.hdlen]
        have := inv.hnvle
        omega
      have hdb2 : cumLen rows b + ((rows.drop b).take n).flatten.length ≤
          st.data.length := by
        rw [inv.hdlen]; omega
      -- bounds for the index memmove
      have hix1 : keptR.length + n ≤
          (rewriteIndex st.nbytesVar (cumLen rows b) b n st.index).length := by
        rw [rewriteIndex_length, inv.hilen]; omega
      have hix2 : b + n ≤
          (rewriteIndex st.nbytesVar (cumLen rows b) b n st.index).length := by
        rw [rewriteIndex_length, inv.hilen]; omega
      refine ⟨rfl, by rw [hklen'], by omega, hnv', ?_, ?_, ?_, ?_, ?_, ?_, ?_, ?_⟩
      · -- nbytesVar' ≤ cumLen (b + n + 1)
        dsimp only
        have h1 : cumLen rows (b + n) ≤ cumLen rows (b + n + 1) :=
          cumLen_mono rows (by omega)
        have := inv.hnvle
        omega
      · -- data length preserved
        dsimp only
        rw [memmove_length _ _ _ _ hdb1 hdb2, inv.hdlen]
      · -- compacted data prefix
        dsimp only
        rw [memmove_take_mid _ _ _ _ hdb1 hdb2, inv.hdtake,
            inv.hddrop, flatten_slice, hpay']
      · -- untouched data suffix
        dsimp only
        have h1 : st.nbytesVar + ((rows.drop b).take n).flatten.length ≤
            cumLen rows (b + n + 1) := by
          have h2 : cumLen rows (b + n) ≤ cumLen rows (b + n + 1) :=
            cumLen_mono rows (by omega)
          have := inv.hnvle
          omega
        rw [memmove_drop_right _ _ _ _ _ hdb1 hdb2 h1]
        exact drop_congr_of_le inv.hddrop (cumLen_mono rows (by omega))
      · -- index length preserved
        dsimp only
        rw [memmove_length _ _ _ _ hix1 hix2, rewriteIndex_length, inv.hilen]
      · -- compacted index prefix
        dsimp only
        intro j hj
        rw [hklen'] at hj
        rcases Nat.lt_or_ge j keptR.length with hjk | hjk
        · rw [idxGet, getD_memmove_left hix1 hjk, getD_rewriteIndex_out
              (by omega)]
          have := inv.hifront j hjk
          rw [idxGet] at this
          rw [this, List.take_append_of_le_length (by omega)]
        · obtain ⟨i, rfl⟩ : ∃ i, j = keptR.length + i := ⟨j - keptR.length, by omega⟩
          have hin : i < n := by omega
          rw [idxGet, getD_memmove_mid hix1 hix2 hin, getD_rewriteIndex_in
              (by omega) (by rw [inv.hilen]; omega)]
          have hj2 : idxGet st.index (b + i) = cumLen rows (b + i) :=
            (inv.hiback (b + i) (by omega)).trans
              (idxGet_offsetsOf rows (by omega))
          rw [idxGet] at hj2
          rw [hj2, hpartial i (by omega), cumLen_add_seg rows b i]
          omega
      · -- untouched index suffix
        dsimp only
        intro j hj
        rw [idxGet, getD_memmove_right hix1 hix2 (by omega),
            getD_rewriteIndex_out (by omega)]
        exact inv.hiback j (by omega)
      · -- fill < keep persists, so the all-rows-kept clause is vacuous
        intro h
        rw [hklen'] at h
        omega
    · have heq : keptR.length = b := not_ne_iff.mp hfillkeep
      have hkeptid : keptR = List.range' 0 b := inv.hall heq
      have hnvcb : st.nbytesVar = cumLen rows b := by
        rw [inv.hnv, hkeptid]
        unfold payloadOf
        rw [map_rowAt_range' rows b 0 (by omega), List.drop_zero]
        rfl
      simp only [if_neg hfillkeep, hib]
      refine ⟨rfl, by rw [hklen'], by omega, hnv', ?_, inv.hdlen, ?_, ?_,
        inv.hilen, ?_, ?_, ?_⟩
      · -- nbytesVar' ≤ cumLen (b + n + 1)
        dsimp only
        have h1 : cumLen rows (b + n) ≤ cumLen rows (b + n + 1) :=
          cumLen_mono rows (by omega)
        omega
      · -- the data is already compacted in place
        dsimp only
        rw [hnvcb, List.take_add, ← hnvcb, inv.hdtake, hnvcb,
            inv.hddrop, flatten_slice, hpay']
      · exact drop_congr_of_le inv.hddrop (cumLen_mono rows (by omega))
      · -- index entries [0, fill + n) already hold the survivor offsets
        dsimp only
        intro j hj
        rw [hklen'] at hj
        rcases Nat.lt_or_ge j keptR.length with hjk | hjk
        · rw [inv.hifront j hjk, List.take_append_of_le_length (by omega)]
        · obtain ⟨i, rfl⟩ : ∃ i, j = keptR.length + i := ⟨j - keptR.length, by omega⟩
          have hin : i < n := by omega
          have hj2 : idxGet st.index (keptR.length + i) =
              cumLen rows (b + i) := by
            rw [heq]
            exact (inv.hiback (b + i) (by omega)).trans
              (idxGet_offsetsOf rows (by omega))
          rw [hj2, hpartial i (by omega), cumLen_add_seg rows b i, hnvcb]
      · intro j hj
        exact inv.hiback j (by omega)
      · intro h
        rw [hklen'] at h
        omega

theorem vacuumVarlenLoop_inv (rows : List (List Nat)) :
    ∀ (ds : List Nat) (b : Nat) (keptR : List Nat) (st : VarState),
      ds.Pairwise (· < ·) → (∀ d ∈ ds, b ≤ d ∧ d < rows.length) →
      b ≤ rows.length →
      VarInv rows b keptR st →
      VarInv rows (rows.length + 1)
        (keptR ++ (List.range' b (rows.length - b)).filter
          (fun r => decide (r ∉ ds)))
        (vacuumVarlenLoop rows.flatten.length rows.length st ds)
  | [], b, keptR, st, _, _, hbN, inv => by
    rw [List.filter_eq_self.mpr (by simp)]
    have h := @varlenStep_inv rows b keptR st inv rows.flatten.length true
      rows.length hbN (le_refl _) (by rw [if_pos rfl, cumLen_length])
    rwa [show rows.length - b = rows.length - b from rfl] at h
  | d :: ds, b, keptR, st, hp, hmem, hbN, inv => by
    have hd := hmem d (by simp)
    have hgt := (List.pairwise_cons.mp hp).1
    rw [filter_range'_split b d rows.length ds hd.1 hd.2 hgt,
        ← List.append_assoc]
    exact vacuumVarlenLoop_inv rows ds (d + 1)
      (keptR ++ List.range' b (d - b)) (varlenStep rows.flatten.length false st d)
      (hp.sublist (by simp))
      (fun x hx => ⟨hgt x hx, (hmem x (by simp [hx])).2⟩) (by omega)
      (varlenStep_inv inv hd.1 (le_of_lt hd.2)
        (by rw [if_neg (by simp), inv.hiback d hd.1,
                idxGet_offsetsOf rows (le_of_lt hd.2)]))

theorem payloadOf_take_mono (rows : List (List Nat)) (l : List Nat)
    {i j : Nat} (h : i ≤ j) :
    (payloadOf rows (l.take i)).length ≤ (payloadOf rows (l.take j)).length := by
  have hsplit : l.take j = l.take i ++ (l.take j).drop i := by
    rw [show l.take i = (l.take j).take i by
          rw [List.take_take, min_eq_left h],
        List.take_append_drop]
  rw [hsplit, payloadOf_append, List.length_append]
  exact Nat.le_add_right _ _

/-- C2: for every variable-length column (logical content `rows`, data
buffer `rows.flatten`, offset array `offsetsOf rows`) and every
strictly increasing in-range deleted-offset list `D`, after
`varlen_vacuum` with `K = N - |D|` surviving rows: the data buffer's
first `dataSize` bytes are the surviving payloads in original order,
every offset entry `j ≤ K` is the cumulative byte length of the first
`j` surviving payloads — hence the offsets are non-decreasing with
`offset[0] = 0` and `offset[K] = dataSize` — and the offset buffer's
size is set to `sizeof(StringOffsetT) * (K == 0 ? 0 : K + 1)`. -/
theorem vacuum_varlen_rows_correct (rows : List (List Nat)) (D : List Nat)
    (hsorted : D.Pairwise (· < ·)) (hrange : ∀ d ∈ D, d < rows.length)
    (K : Nat) (hK : K = rows.length - D.length) (res : VarVacResult)
    (hres : res = varlen_vacuum rows.length rows.flatten (offsetsOf rows) D) :
    res.dataSize = (payloadOf rows (keptRows rows.length D)).length ∧
    res.data.take res.dataSize = payloadOf rows (keptRows rows.length D) ∧
    (∀ j ≤ K, idxGet res.index j =
      (payloadOf rows ((keptRows rows.length D).take j)).length) ∧
    (∀ i j, i ≤ j → j ≤ K → idxGet res.index i ≤ idxGet res.index j) ∧
    idxGet res.index 0 = 0 ∧
    idxGet res.index K = res.dataSize ∧
    res.indexSize = (if K = 0 then 0 else indexElementSize * (1 + K)) ∧
    res.numElements = K := by
  have inv0 : VarInv rows 0 [] ⟨0, 0, 0, 0, rows.flatten, offsetsOf rows⟩ :=
    ⟨rfl, rfl, Nat.le_refl 0, by simp [payloadOf], Nat.zero_le _, rfl,
      by simp [payloadOf], rfl, offsetsOf_length rows, by simp,
      fun j _ => rfl, by simp⟩
  have hfin := vacuumVarlenLoop_inv rows D 0 []
    ⟨0, 0, 0, 0, rows.flatten, offsetsOf rows⟩ hsorted
    (fun d hd => ⟨Nat.zero_le d, hrange d hd⟩) (Nat.zero_le _) inv0
  rw [List.nil_append, Nat.sub_zero, ← List.range_eq_range'] at hfin
  have hkr : (List.range rows.length).filter (fun r => decide (r ∉ D)) =
      keptRows rows.length D := rfl
  rw [hkr] at hfin
  have hklen : (keptRows rows.length D).length = K := by
    have := filter_range'_length D 0 rows.length hsorted
      (fun d hd => ⟨Nat.zero_le d, hrange d hd⟩) (Nat.zero_le _)
    rw [Nat.sub_zero, ← List.range_eq_range', hkr] at this
    rw [this, hK]
  have hKN : K ≤ rows.length := by omega
  -- the final state of the vacuum loop
  have hfinal : vacuum_varlen_rows rows.length rows.flatten (offsetsOf rows) D =
      vacuumVarlenLoop rows.flatten.length rows.length
        ⟨0, 0, 0, 0, rows.flatten, offsetsOf rows⟩ D := rfl
  set fin := vacuumVarlenLoop rows.flatten.length rows.length
    ⟨0, 0, 0, 0, rows.flatten, offsetsOf rows⟩ D with hfin_def
  have hres' : res = ⟨fin.data, fin.index.set K fin.nbytesVar, fin.nbytesVar,
      indexElementSize * (if K ≠ 0 then 1 + K else 0), K⟩ := by
    rw [hres]
    simp only [varlen_vacuum, ← hK, hfinal]
  have hidxlen : fin.index.length = rows.length + 1 := hfin.hilen
  have hset : ∀ j ≤ K, idxGet (fin.index.set K fin.nbytesVar) j =
      (payloadOf rows ((keptRows rows.length D).take j)).length := by
    intro j hj
    rcases Nat.lt_or_ge j K with hjK | hjK
    · rw [idxGet, List.getD_eq_getElem?_getD,
          List.getElem?_set_ne (show K ≠ j by omega),
          ← List.getD_eq_getElem?_getD]
      exact hfin.hifront j (by omega)
    · have hjeq : j = K := by omega
      rw [hjeq, idxGet, List.getD_eq_getElem?_getD,
          @List.getElem?_set_eq_of_lt _ fin.nbytesVar K fin.index
            (by rw [hidxlen]; omega)]
      simp only [Option.getD_some]
      rw [hfin.hnv, List.take_of_length_le (le_of_eq hklen)]
  refine ⟨?_, ?_, ?_, ?_, ?_, ?_, ?_, ?_⟩
  · rw [hres']
    exact hfin.hnv
  · rw [hres']
    dsimp only
    rw [hfin.hnv]
    have := hfin.hdtake
    rw [hfin.hnv] at this
    exact this
  · intro j hj
    rw [hres']
    exact hset j hj
  · intro i j hij hj
    rw [hres']
    dsimp only
    rw [hset i (by omega), hset j hj]
    exact payloadOf_take_mono rows _ hij
  · rw [hres']
    dsimp only
    rw [hset 0 (Nat.zero_le K)]
    simp [payloadOf]
  · rw [hres']
    dsimp only
    rw [hset K (le_refl K), List.take_of_length_le (by omega), hfin.hnv]
  · rw [hres']
    dsimp only
    rcases Nat.eq_zero_or_pos K with h | h
    · subst h
      simp
    · rw [if_pos (show K ≠ 0 by omega), if_neg (show ¬K = 0 by omega)]
  · rw [hres']

theorem vacuum_varlen_rows_correct_witness :
    (List.Pairwise (· < ·) [1, 3] ∧
      (∀ d ∈ [1, 3], d < ([[1, 1, 1], [2, 2, 2], [3, 3, 3], [4, 4, 4],
        [5, 5, 5]] : List (List Nat)).length) ∧
      (3 : Nat) = ([[1, 1, 1], [2, 2, 2], [3, 3, 3], [4, 4, 4],
        [5, 5, 5]] : List (List Nat)).length - [1, 3].length) ∧
    (varlen_vacuum 5 ([[1, 1, 1], [2, 2, 2], [3, 3, 3], [4, 4, 4],
        [5, 5, 5]] : List (List Nat)).flatten
      (offsetsOf [[1, 1, 1], [2, 2, 2], [3, 3, 3], [4, 4, 4], [5, 5, 5]])
      [1, 3]).dataSize =
      (payloadOf [[1, 1, 1], [2, 2, 2], [3, 3, 3], [4, 4, 4], [5, 5, 5]]
        (keptRows 5 [1, 3])).length ∧
    (varlen_vacuum 5 ([[1, 1, 1], [2, 2, 2], [3, 3, 3], [4, 4, 4],
        [5, 5, 5]] : List (List Nat)).flatten
      (offsetsOf [[1, 1, 1], [2, 2, 2], [3, 3, 3], [4, 4, 4], [5, 5, 5]])
      [1, 3]).dataSize = 9 ∧
    (varlen_vacuum 5 ([[1, 1, 1], [2, 2, 2], [3, 3, 3], [4, 4, 4],
        [5, 5, 5]] : List (List Nat)).flatten
      (offsetsOf [[1, 1, 1], [2, 2, 2], [3, 3, 3], [4, 4, 4], [5, 5, 5]])
      [1, 3]).data.take 9 = [1, 1, 1, 3, 3, 3, 5, 5, 5] ∧
    idxGet (varlen_vacuum 5 ([[1, 1, 1], [2, 2, 2], [3, 3, 3], [4, 4, 4],
        [5, 5, 5]] : List (List Nat)).flatten
      (offsetsOf [[1, 1, 1], [2, 2, 2], [3, 3, 3], [4, 4, 4], [5, 5, 5]])
      [1, 3]).index 0 = 0 ∧
    idxGet (varlen_vacuum 5 ([[1, 1, 1], [2, 2, 2], [3, 3, 3], [4, 4, 4],
        [5, 5, 5]] : List (List Nat)).flatten
      (offsetsOf [[1, 1, 1], [2, 2, 2], [3, 3, 3], [4, 4, 4], [5, 5, 5]])
      [1, 3]).index 1 = 3 ∧
    idxGet (varlen_vacuum 5 ([[1, 1, 1], [2, 2, 2], [3, 3, 3], [4, 4, 4],
        [5, 5, 5]] : List (List Nat)).flatten
      (offsetsOf [[1, 1, 1], [2, 2, 2], [3, 3, 3], [4, 4, 4], [5, 5, 5]])
      [1, 3]).index 2 = 6 ∧
    idxGet (varlen_vacuum 5 ([[1, 1, 1], [2, 2, 2], [3, 3, 3], [4, 4, 4],
        [5, 5, 5]] : List (List Nat)).flatten
      (offsetsOf [[1, 1, 1], [2, 2, 2], [3, 3, 3], [4, 4, 4], [5, 5, 5]])
      [1, 3]).index 3 = 9 ∧
    (varlen_vacuum 5 ([[1, 1, 1], [2, 2, 2], [3, 3, 3], [4, 4, 4],
        [5, 5, 5]] : List (List Nat)).flatten
      (offsetsOf [[1, 1, 1], [2, 2, 2], [3, 3, 3], [4, 4, 4], [5, 5, 5]])
      [1, 3]).indexSize = 4 * (1 + 3) ∧
    (varlen_vacuum 5 ([[1, 1, 1], [2, 2, 2], [3, 3, 3], [4, 4, 4],
        [5, 5, 5]] : List (List Nat)).flatten
      (offsetsOf [[1, 1, 1], [2, 2, 2], [3, 3, 3], [4, 4, 4], [5, 5, 5]])
      [1, 3]).numElements = 3 :=
  ⟨⟨by decide, by decide, by decide⟩,
    (vacuum_varlen_rows_correct
      [[1, 1, 1], [2, 2, 2], [3, 3, 3], [4, 4, 4], [5, 5, 5]] [1, 3]
      (by decide) (by decide) 3 (by decide) _ rfl).1,
    by decide, by decide, by decide, by decide, by decide, by decide,
    by decide, by decide⟩

/-! ## `InsertOrderFragmenter::getVacuumOffsets` (lines 487-501)

Scan the delete column's chunk buffer (one marker byte per row,
`nrows_in_chunk = data_buffer->size()`) and collect the positions whose
byte is non-zero, in scan order. -/

def getVacuumOffsets (dataBuffer : List Nat) : List Nat :=
  (List.range dataBuffer.length).filter (fun r => decide (dataBuffer.getD r 0 ≠ 0))

/-- C10: `getVacuumOffsets` returns exactly the set of positions
`r ∈ [0, buffer.size)` whose delete-marker byte is non-zero, in
strictly increasing order — so its output always satisfies
`compactRows`' precondition that deleted offsets be strictly
increasing and in range. -/
theorem getVacuumOffsets_correct (dataBuffer : List Nat) :
    (∀ r, r ∈ getVacuumOffsets dataBuffer ↔
      r < dataBuffer.length ∧ dataBuffer.getD r 0 ≠ 0) ∧
    (getVacuumOffsets dataBuffer).Pairwise (· < ·) := by
  constructor
  · intro r
    simp [getVacuumOffsets, List.mem_filter, List.mem_range]
  · exact (List.pairwise_lt_range _).filter _

/-! ## Statistics accumulators and their initial values

`updateColumn` (lines 134-138) and `compactRows` (lines 642-646) give
each worker per-thread accumulators `(hasNull, minF64, maxF64, minI64, maxI64)`.
Machine `int64_t` is `Int` wrapped to 8 bytes; C++ `double` limits are
modelled by their exact rational values. -/

/-- Two's-complement wrap of an integer into `w` bytes: the value kept
by a C++ store into a `w`-byte signed integer slot. -/
def wrapInt (w : Nat) (v : Int) : Int :=
  (v + 2 ^ (8 * w - 1)) % 2 ^ (8 * w) - 2 ^ (8 * w - 1)

/-- `std::numeric_limits<int64_t>::max()`. -/
def int64_max : Int := 2 ^ 63 - 1

/-- `std::numeric_limits<int64_t>::min()`. -/
def int64_min : Int := -(2 ^ 63)

/-- `std::numeric_limits<uint64_t>::max()`. -/
def uint64_max : Nat := 2 ^ 64 - 1

/-- `std::numeric_limits<uint64_t>::min()`. -/
def uint64_min : Nat := 0

/-- `std::numeric_limits<double>::min()`: the smallest positive normal
double, `2^-1022` — a positive number, not the most negative double. -/
def dbl_min : ℚ := 1 / 2 ^ 1022

/-- `std::numeric_limits<double>::max()` = `(2^53 - 1) * 2^971`. -/
def dbl_max : ℚ := (2 ^ 53 - 1) * 2 ^ 971

/-- Line 138: `min_int64t_per_thread(ncore, std::numeric_limits<int64_t>::max())`. -/
def min_int64t_init_updateColumn : Int := int64_max

/-- Line 137: `max_int64t_per_thread(ncore, std::numeric_limits<int64_t>::min())`. -/
def max_int64t_init_updateColumn : Int := int64_min

/-- Line 136: `min_double_per_thread(ncore, std::numeric_limits<double>::max())`. -/
def min_double_init_updateColumn : ℚ := dbl_max

/-- Line 135: `max_double_per_thread(ncore, std::numeric_limits<double>::min())`. -/
def max_double_init_updateColumn : ℚ := dbl_min

/-- Line 646: `min_int64t_per_thread(ncol, std::numeric_limits<uint64_t>::max())`
— the `uint64_t` limit is converted into the `int64_t` element type of
the vector. -/
def min_int64t_init_compactRows : Int := wrapInt 8 (uint64_max : Int)

/-- Line 645: `max_int64t_per_thread(ncol, std::numeric_limits<uint64_t>::min())`. -/
def max_int64t_init_compactRows : Int := wrapInt 8 (uint64_min : Int)

/-- Line 644: `min_double_per_thread(ncol, std::numeric_limits<double>::max())`. -/
def min_double_init_compactRows : ℚ := dbl_max

/-- Line 643: `max_double_per_thread(ncol, std::numeric_limits<double>::min())`. -/
def max_double_init_compactRows : ℚ := dbl_min

/-- Modelled from the spec: `set_minmax` of `Shared/TypedDataAccessors.h`
(not part of this snapshot) — fold a value into a running `(min, max)`
pair: `if (v < min) min = v; if (v > max) max = v;`. -/
def set_minmax (mn mx v : Int) : Int × Int :=
  (if v < mn then v else mn, if mx < v then v else mx)

/-- Modelled from the spec: `set_minmax` on doubles, at exact rational
values. -/
def set_minmaxQ (mn mx v : ℚ) : ℚ × ℚ :=
  (if v < mn then v else mn, if mx < v then v else mx)

/-- C5 (code bug): in `compactRows` the int64 accumulators are
initialized from `std::numeric_limits<uint64_t>` — after conversion to
`int64_t` the min accumulator starts at `-1` and the max accumulator at
`0`, not at the int64 extremes the claim (and `updateColumn`'s own
lines 137-138) require; folding a surviving value `5` then leaves
`min = -1`, a value never written.  `updateColumn`'s int64 inits are
the correct neutral extremes, but both functions start the max-double
accumulator at `std::numeric_limits<double>::min() = 2^-1022`, which is
larger than any negative written double, so folding `-1.0` leaves
`max = 2^-1022 ≠ -1`. -/
theorem compactRows_accumulator_init_bug :
    min_int64t_init_compactRows = -1 ∧
    max_int64t_init_compactRows = 0 ∧
    min_int64t_init_compactRows ≠ int64_max ∧
    max_int64t_init_compactRows ≠ int64_min ∧
    set_minmax min_int64t_init_compactRows max_int64t_init_compactRows 5 =
      (-1, 5) ∧
    min_int64t_init_updateColumn = int64_max ∧
    max_int64t_init_updateColumn = int64_min ∧
    (-1 : ℚ) < max_double_init_updateColumn ∧
    (set_minmaxQ min_double_init_updateColumn max_double_init_updateColumn
      (-1)).2 ≠ -1 := by
  have hpos : (0 : ℚ) < dbl_min := by rw [dbl_min]; positivity
  refine ⟨by decide, by decide, by decide, by decide, by decide, rfl, rfl,
    ?_, ?_⟩
  · show (-1 : ℚ) < max_double_init_updateColumn
    rw [max_double_init_updateColumn]
    linarith
  · have hlt : ¬ max_double_init_updateColumn < (-1 : ℚ) := by
      rw [max_double_init_updateColumn]
      intro hc
      linarith
    rw [set_minmaxQ]
    dsimp only
    rw [if_neg hlt, max_double_init_updateColumn]
    intro hc
    rw [hc] at hpos
    norm_num at hpos

/-! ## `set_chunk_stats` and the `fixlen_vacuum` statistics pass -/

/-- Accumulator triple a `set_chunk_stats` call folds into (one
`has_null` byte and the int64 `(min, max)` pair of the worker). -/
structure ChunkStatsAcc where
  hasNull : Bool
  minI : Int
  maxI : Int
deriving Repr, DecidableEq

/-- `set_chunk_stats` (lines 503-517): re-read one element from
`data_addr`; if it reads as null, fold `can_be_null && is_null` into
`has_null`, otherwise fold the value into `(min, max)`.  `get_scalar`'s
null test is modelled as comparison with the column type's null
sentinel. -/
def set_chunk_stats (canBeNull : Bool) (nullSentinel v : Int)
    (acc : ChunkStatsAcc) : ChunkStatsAcc :=
  if v = nullSentinel then
    { acc with hasNull := acc.hasNull || canBeNull }
  else
    let mm := set_minmax acc.minI acc.maxI v
    { acc with minI := mm.1, maxI := mm.2 }

/-- The per-element statistics pass of the `fixlen_vacuum` lambda
(lines 683-705) for a non-fixlen-array integer-statistics column,
exactly as the source is written: the loop advances `daddr` by
`element_size` each iteration but passes `data_addr` — the buffer
base — to `set_chunk_stats`, so every iteration re-reads element 0 of
the compacted buffer. -/
def fixlen_vacuum_stats (nrowsToKeep : Nat) (canBeNull : Bool)
    (nullSentinel : Int) (elems : List Int) (init : ChunkStatsAcc) :
    ChunkStatsAcc :=
  (List.range nrowsToKeep).foldl
    (fun acc _irow => set_chunk_stats canBeNull nullSentinel (elems.getD 0 0) acc)
    init

/-- The statistics pass as the specification states it: each surviving
element, at its own address `daddr = data_addr + irow * element_size`,
is folded into the per-column accumulators. -/
def fixlen_vacuum_stats_claim (nrowsToKeep : Nat) (canBeNull : Bool)
    (nullSentinel : Int) (elems : List Int) (init : ChunkStatsAcc) :
    ChunkStatsAcc :=
  (List.range nrowsToKeep).foldl
    (fun acc irow => set_chunk_stats canBeNull nullSentinel (elems.getD irow 0) acc)
    init

/-- C4 (code bug): on a compacted integer column holding the two
survivors `[5, 9]` (neither null), the loop as written folds element 0
twice — yielding `(min, max) = (5, 5)` — while folding each surviving
element at its own address, as the claim states (and as the
fixlen-array branch's correct use of `daddr` shows was intended),
yields `(5, 9)`; the survivor `9` is never folded. -/
theorem fixlen_vacuum_stats_bug :
    fixlen_vacuum_stats 2 true (-128) [5, 9] ⟨false, int64_max, int64_min⟩ =
      ⟨false, 5, 5⟩ ∧
    fixlen_vacuum_stats_claim 2 true (-128) [5, 9]
      ⟨false, int64_max, int64_min⟩ = ⟨false, 5, 9⟩ ∧
    (5 : Int) ≠ 9 := by
  refine ⟨by decide, by decide, by decide⟩

/-! ## `InsertOrderFragmenter::updateColumn` (lines 100-385)

The per-column updater: record the transaction context on the
`UpdelRoll`, mark the chunk dirty, run the per-row mutation loop with
per-thread statistics accumulators, reduce them, and install shadow
chunk metadata through `updateColumnMetadata`.

The embedding covers the `int64_t` and `NullableString` RHS variants
and the integral / decimal / dictionary-encoded-string LHS families.
The `double`/`float` RHS variants, floating-point and date-in-days LHS
columns, numeric string parsing (`atof`/`StringToDatum`) and
`decimal_to_double` folds require IEEE-754 semantics; entering such a
branch yields the explicit `unmodelledFP` outcome.  The
`FragmentInfo::unconditionalVacuum_` test hook is modelled in its
default `false` state.  The worker threads partition the rows into
`ncore` contiguous segments; the embedding runs the same per-row work
sequentially in row order, with each row folding into its own
segment's accumulator cell, and a thrown row failing the whole call
(as the driver's join-and-rethrow does). -/

/-- `ScalarTargetValue`, restricted to the embedded variants. -/
inductive STV
  | i64 (v : Int)
  | nstr (s : Option String)
deriving Repr, DecidableEq

/-- The LHS column-type information `updateColumn` consults:
`integral w` covers the `is_integral` families (integer, boolean,
time, time-interval) of byte width `w`, `decimalT w dim scale` the
decimals, `dictStr` dictionary-encoded strings. -/
inductive LhsType
  | integral (size : Nat)
  | decimalT (size dim scale : Nat)
  | dictStr
deriving Repr, DecidableEq

/-- The fields of the RHS `SQLTypeInfo` the embedded paths read. -/
structure RhsType where
  isString : Bool
  isDecimal : Bool
  dim : Nat
  scale : Nat
deriving Repr, DecidableEq

/-- `Data_Namespace::MemoryLevel`. -/
inductive MemLevel
  | disk
  | cpu
  | gpu
deriving Repr, DecidableEq

/-- `ChunkKey`: `(dbId, tableId, columnId, fragmentId)`, possibly
extended by sub-keys (varlen buffers) or truncated to a prefix. -/
abbrev ChunkKey := List Int

/-- `MetaDataKey = (TableDescriptor*, FragmentInfo*)`, identified by
table id and fragment id. -/
abbrev MetaKey := Int × Int

/-- A `ChunkMetadata` slot: sizes plus the encoder-emitted stats. -/
structure ChunkMetaS where
  numBytes : Nat
  numElements : Nat
  minI : Int
  maxI : Int
  hasNull : Bool
deriving Repr, DecidableEq

/-- Modelled from the spec: the per-chunk `Encoder` (owned by the
buffer manager, not part of this snapshot) — "per-chunk statistics
accumulator (min, max, has-null, numElements) and metadata emitter";
`updateStats` widens the running stats by one value and a null flag. -/
structure EncoderS where
  hasNull : Bool
  minI : Int
  maxI : Int
  numElems : Nat
deriving Repr, DecidableEq

/-- Modelled from the spec: `Encoder::updateStats` widens `(min, max,
hasNull)` by the given value and null flag. -/
def EncoderS.updateStats (e : EncoderS) (v : Int) (hasNull : Bool) : EncoderS :=
  { e with
    hasNull := e.hasNull || hasNull
    minI := min e.minI v
    maxI := max e.maxI v }

/-- Modelled from the spec: `Encoder::getMetadata` serializes the
running stats (and the buffer's size / element count) into a
`ChunkMetadata` slot. -/
def EncoderS.getMetadata (e : EncoderS) (numBytes : Nat) : ChunkMetaS :=
  ⟨numBytes, e.numElems, e.minI, e.maxI, e.hasNull⟩

/-- The `UpdelRoll` transaction scratchpad. -/
structure UpdelRollS where
  catalog : Option Int
  logicalTableId : Int
  memoryLevel : MemLevel
  dirtyChunks : List Int
  dirtyChunkeys : List ChunkKey
  chunkMetadata : List (MetaKey × List (Nat × ChunkMetaS))
  numTuples : List (MetaKey × Nat)
deriving Repr, DecidableEq

/-- Association-list read (`std::map::count` / `find`). -/
def getAssoc {α β : Type} [DecidableEq α] : List (α × β) → α → Option β
  | [], _ => none
  | (k', v') :: t, k => if k' = k then some v' else getAssoc t k

/-- Association-list write (`std::map::operator[] =`). -/
def setAssoc {α β : Type} [DecidableEq α] : List (α × β) → α → β → List (α × β)
  | [], k, v => [(k, v)]
  | (k', v') :: t, k, v =>
    if k' = k then (k, v) :: t else (k', v') :: setAssoc t k v

/-- Per-worker statistics accumulator cell (`has_null_per_thread[c]`,
`min_int64t_per_thread[c]`, `max_int64t_per_thread[c]`).  The double
cells are never touched by the embedded paths and are omitted; the
only metadata branch that reads them is the decimal-from-double one,
which is `unmodelledFP`. -/
structure ThreadAcc where
  hasNull : Bool
  minI : Int
  maxI : Int
deriving Repr, DecidableEq

/-- The accumulator cell initial value (lines 134, 137-138). -/
def initThreadAcc : ThreadAcc :=
  ⟨false, min_int64t_init_updateColumn, max_int64t_init_updateColumn⟩

/-- Outcome of a mutation: normal completion, a thrown
`std::runtime_error` carrying its message, or entry into a branch
whose semantics needs IEEE floating point (outside this embedding). -/
inductive UpdResult (α : Type)
  | ok (a : α)
  | thrown (msg : String)
  | unmodelledFP
deriving Repr, DecidableEq

/-- Modelled from the spec: `put_null` of `Shared/TypedDataAccessors.h`
writes "the null sentinel for `lhsType`": the minimum value of a
`w`-byte signed slot, and the 32-bit null index for a
dictionary-encoded string. -/
def nullSentinel : LhsType → Int
  | .integral w => -(2 ^ (8 * w - 1))
  | .decimalT w _ _ => -(2 ^ (8 * w - 1))
  | .dictStr => -(2 ^ 31)

/-- Modelled from the spec: `put_scalar<int64_t>` — a decimal LHS
stores the value rescaled from the RHS scale to the LHS scale
("Decimal is stored as an integer scaled by `10^scale`"; integer
division truncating toward zero when scaling down), then kept at the
LHS physical width; an integral LHS stores the value at its width. -/
def put_scalar_i64 (lhs : LhsType) (rhsScale : Nat) (v : Int) : Int :=
  match lhs with
  | .integral w => wrapInt w v
  | .decimalT w _ scale =>
    wrapInt w (if rhsScale ≤ scale then v * 10 ^ (scale - rhsScale)
      else v.tdiv (10 ^ (rhsScale - scale)))
  | .dictStr => v

/-- Modelled from the spec: `DecimalOverflowValidator(lhs_type).validate<int64_t>(v)`
— for a decimal LHS the incoming value is range-checked against bounds
derived from the LHS `(dimension, scale)` precision (`±10^dimension`);
other types are not checked.  Returns `true` when the value passes. -/
def decimalOverflowValidate (lhs : LhsType) (v : Int) : Bool :=
  match lhs with
  | .decimalT _ dim _ => decide (-(10 ^ dim : Int) < v ∧ v < 10 ^ dim)
  | _ => true

/-- One iteration of the per-row loop body of `updateColumn`
(lines 194-341) on the embedded variants: dereference a
string-to-string RHS index through the RHS dictionary (`rhsDict`,
`none` when the RHS dictionary descriptor is absent), then dispatch on
the variant and the LHS type, writing element `roffs` of the chunk and
folding this worker's statistics cell. -/
def updateOneRow (lhs : LhsType) (rhs : RhsType)
    (rhsDict : Option (Int → String)) (lhsDict : String → Int)
    (buf : List Int) (roffs : Nat) (sv : STV) (acc : ThreadAcc) :
    UpdResult (List Int × ThreadAcc) :=
  let svres : UpdResult STV :=
    if rhs.isString then
      match sv with
      | .i64 v =>
        match rhsDict with
        | none => .thrown
            "UPDATE does not support cast from string literal to string column."
        | some getString => .ok (.nstr (some (getString v)))
      | .nstr s => .ok (.nstr s)
    else .ok sv
  match svres with
  | .thrown m => .thrown m
  | .unmodelledFP => .unmodelledFP
  | .ok sv =>
    match sv with
    | .i64 v =>
      match lhs with
      | .dictStr => .thrown "UPDATE does not support cast to string."
      | .integral w =>
        if decimalOverflowValidate (.integral w) v then
          let buf' := buf.set roffs (put_scalar_i64 (.integral w) rhs.scale v)
          if rhs.isDecimal then .unmodelledFP
          else
            let mm := set_minmax acc.minI acc.maxI v
            .ok (buf', { acc with minI := mm.1, maxI := mm.2 })
        else .thrown "Decimal overflow"
      | .decimalT w dim scale =>
        if decimalOverflowValidate (.decimalT w dim scale) v then
          let buf' := buf.set roffs
            (put_scalar_i64 (.decimalT w dim scale) rhs.scale v)
          let decimal := buf'.getD roffs 0
          let mm := set_minmax acc.minI acc.maxI decimal
          let acc' := { acc with minI := mm.1, maxI := mm.2 }
          if decide (0 ≤ v) = decide (decimal < 0) then
            .thrown ("Data conversion overflow on " ++ toString v ++
              " from DECIMAL(" ++ toString rhs.dim ++ ", " ++
              toString rhs.scale ++ ") to (" ++ toString dim ++ ", " ++
              toString scale ++ ")")
          else .ok (buf', acc')
        else .thrown "Decimal overflow"
    | .nstr s =>
      let sval := s.getD ""
      match lhs with
      | .dictStr =>
        let sidx := lhsDict sval
        let buf' := buf.set roffs sidx
        let mm := set_minmax acc.minI acc.maxI sidx
        .ok (buf', { acc with minI := mm.1, maxI := mm.2 })
      | .integral w =>
        if 0 < sval.length then .unmodelledFP
        else .ok (buf.set roffs (nullSentinel (.integral w)),
          { acc with hasNull := true })
      | .decimalT w dim scale =>
        if 0 < sval.length then .unmodelledFP
        else .ok (buf.set roffs (nullSentinel (.decimalT w dim scale)),
          { acc with hasNull := true })

/-- Whether the mutator writes a null for this RHS value (the
`put_null` branch: a `NullableString` that is null or empty, into a
non-string LHS). -/
def isNullWrite (lhs : LhsType) : STV → Bool
  | .nstr s =>
    match lhs with
    | .dictStr => false
    | _ => decide (s.getD "" = "")
  | _ => false

/-- The call-site environment of one `updateColumn` call: catalog /
table / column identities, the column types, the dictionaries and the
thread count. -/
structure UpdateEnv where
  ncore : Nat
  catalogId : Int
  dbId : Int
  tableId : Int
  logicalTableId : Int
  columnId : Nat
  fragmentId : Int
  lhs : LhsType
  rhs : RhsType
  rhsDict : Option (Int → String)
  lhsDict : String → Int
  chunkId : Int
  memLevel : MemLevel
  fragPhysicalMeta : List (Nat × ChunkMetaS)
  fragShadowNumTuples : Nat

/-- The RHS value row `r` resolves to (broadcast when one RHS value is
given, positional otherwise). -/
def resolvedValue (rhsValues : List STV) (r : Nat) : STV :=
  rhsValues.getD (if rhsValues.length = 1 then 0 else r) (.i64 0)

/-- The per-row step of the parallel loop, sequentialized: row `r`
belongs to worker `c = r / segsz` and folds into that worker's
accumulator cell.  A thrown or unmodelled row fails the whole fold. -/
def updateRowStep (env : UpdateEnv) (fragOffsets : List Nat)
    (rhsValues : List STV) (segsz : Nat)
    (st : UpdResult (List Int × List ThreadAcc)) (r : Nat) :
    UpdResult (List Int × List ThreadAcc) :=
  match st with
  | .ok (b, accs) =>
    let c := r / segsz
    match updateOneRow env.lhs env.rhs env.rhsDict env.lhsDict b
      (fragOffsets.getD r 0) (resolvedValue rhsValues r)
      (accs.getD c initThreadAcc) with
    | .ok (b', acc') => .ok (b', accs.set c acc')
    | .thrown m => .thrown m
    | .unmodelledFP => .unmodelledFP
  | .thrown m => .thrown m
  | .unmodelledFP => .unmodelledFP

/-- `InsertOrderFragmenter::updateColumnMetadata` (lines 387-432) on
the embedded column families: snapshot the fragment's physical
metadata and tuple count into the roll on first touch, update the
encoder's stats with the reduced chunk scalars (the int64 pair for
integral columns, decimal columns written from a decimal RHS, and
dictionary-encoded strings; the decimal-from-double branch needs the
double accumulators — unmodelled), and emit the encoder's metadata
into the shadow slot of this column. -/
def metadataSnapshot (env : UpdateEnv) (roll : UpdelRollS) : UpdelRollS :=
  let key : MetaKey := (env.tableId, env.fragmentId)
  let roll₁ :=
    if (getAssoc roll.chunkMetadata key).isNone then
      { roll with chunkMetadata := setAssoc roll.chunkMetadata key env.fragPhysicalMeta }
    else roll
  if (getAssoc roll₁.numTuples key).isNone then
    { roll₁ with numTuples := setAssoc roll₁.numTuples key env.fragShadowNumTuples }
  else roll₁

def metadataEmit (env : UpdateEnv) (enc' : EncoderS) (bufLen : Nat)
    (roll : UpdelRollS) : UpdelRollS :=
  let key : MetaKey := (env.tableId, env.fragmentId)
  let meta := enc'.getMetadata bufLen
  let cmMap := (getAssoc roll.chunkMetadata key).getD []
  { roll with
    chunkMetadata :=
      setAssoc roll.chunkMetadata key (setAssoc cmMap env.columnId meta) }

def updateColumnMetadata (env : UpdateEnv) (hasNullChunk : Bool)
    (maxIChunk minIChunk : Int) (enc : EncoderS) (bufLen : Nat)
    (roll : UpdelRollS) : UpdResult (EncoderS × UpdelRollS) :=
  let roll₂ := metadataSnapshot env roll
  let emit := fun (enc' : EncoderS) =>
    UpdResult.ok (enc', metadataEmit env enc' bufLen roll₂)
  match env.lhs with
  | .integral _ =>
    emit ((enc.updateStats maxIChunk hasNullChunk).updateStats minIChunk
      hasNullChunk)
  | .decimalT _ _ _ =>
    if env.rhs.isDecimal then
      emit ((enc.updateStats maxIChunk hasNullChunk).updateStats minIChunk
        hasNullChunk)
    else .unmodelledFP
  | .dictStr =>
    emit ((enc.updateStats maxIChunk hasNullChunk).updateStats minIChunk
      hasNullChunk)

/-- `InsertOrderFragmenter::updateColumn` (lines 100-385): the full
per-column update.  Returns the call outcome (new buffer and encoder
on success) paired with the final `UpdelRoll` state (the roll is
mutated in place in the source, also when an exception propagates). -/
def updateColumn (env : UpdateEnv) (fragOffsets : List Nat)
    (rhsValues : List STV) (buf : List Int) (enc : EncoderS)
    (roll : UpdelRollS) : UpdResult (List Int × EncoderS) × UpdelRollS :=
  -- lines 109-111: record the transaction context
  let roll₀ :=
    { roll with
      catalog := some env.catalogId
      logicalTableId := env.logicalTableId
      memoryLevel := env.memLevel }
  -- lines 116-118: empty offsets, early return
  if fragOffsets.length = 0 then (.ok (buf, enc), roll₀)
  else
    let nrow := fragOffsets.length
    let nrhs := rhsValues.length
    -- line 119: `CHECK(nrow == n_rhs_values || 1 == n_rhs_values)`
    if ¬(nrow = nrhs ∨ nrhs = 1) then
      (.thrown "CHECK(nrow == n_rhs_values || 1 == n_rhs_values)", roll₀)
    else
      -- lines 148-160: mark the chunk and its key dirty
      let ck : ChunkKey :=
        [env.dbId, env.tableId, (env.columnId : Int), env.fragmentId]
      let roll₁ :=
        { roll₀ with
          dirtyChunks :=
            if env.chunkId ∈ roll₀.dirtyChunks then roll₀.dirtyChunks
            else roll₀.dirtyChunks ++ [env.chunkId]
          dirtyChunkeys :=
            if ck ∈ roll₀.dirtyChunkeys then roll₀.dirtyChunkeys
            else roll₀.dirtyChunkeys ++ [ck] }
      let segsz := (nrow + env.ncore - 1) / env.ncore
      match (List.range nrow).foldl
        (updateRowStep env fragOffsets rhsValues segsz)
        (.ok (buf, List.replicate env.ncore initThreadAcc)) with
      | .thrown m => (.thrown m, roll₁)
      | .unmodelledFP => (.unmodelledFP, roll₁)
      | .ok (buf', accs) =>
        -- lines 359-374: reduce the per-thread accumulators
        let hasNullChunk := accs.foldl (fun h a => h || a.hasNull) false
        let maxIChunk := accs.foldl (fun m a => max m a.maxI)
          max_int64t_init_updateColumn
        let minIChunk := accs.foldl (fun m a => min m a.minI)
          min_int64t_init_updateColumn
        match updateColumnMetadata env hasNullChunk maxIChunk minIChunk enc
          buf'.length roll₁ with
        | .ok (enc', roll₂) => (.ok (buf', enc'), roll₂)
        | .thrown m => (.thrown m, roll₁)
        | .unmodelledFP => (.unmodelledFP, roll₁)

/-- The metadata slot the call installed for a column, if any. -/
def emittedMeta (roll : UpdelRollS) (key : MetaKey) (columnId : Nat) :
    Option ChunkMetaS :=
  (getAssoc roll.chunkMetadata key).bind fun m => getAssoc m columnId

theorem getD_set_self {l : List Int} {i : Nat} {v : Int}
    (h : i < l.length) : (l.set i v).getD i 0 = v := by
  rw [List.getD_eq_getElem?_getD, @List.getElem?_set_eq_of_lt _ v i l h]
  rfl

/-- A concrete call environment: integer column (BIGINT), plain integer
RHS type, no dictionaries. -/
def envInt : UpdateEnv :=
  ⟨2, 7, 1, 2, 2, 9, 3, .integral 8, ⟨false, false, 0, 0⟩, none,
    fun _ => 7, 11, .cpu, [], 0⟩

/-- A fresh `UpdelRoll` (default-constructed: null catalog, empty
dirty sets and shadow maps). -/
def roll0 : UpdelRollS := ⟨none, 0, .cpu, [], [], [], []⟩

/-- C6 (amended): a call with empty `fragOffsets` leaves the chunk
buffer, the encoder (hence the fragment metadata) and the roll's dirty
chunks, dirty chunk keys, shadow chunk-metadata and shadow tuple
counts unchanged, and succeeds — but it does first record the catalog,
the logical table id and the memory level on the `UpdelRoll`
(lines 109-111 run before the `0 == nrow` early return). -/
theorem updateColumn_empty_offsets (env : UpdateEnv) (rhsValues : List STV)
    (buf : List Int) (enc : EncoderS) (roll : UpdelRollS) :
    updateColumn env [] rhsValues buf enc roll =
      (.ok (buf, enc),
        { roll with
          catalog := some env.catalogId
          logicalTableId := env.logicalTableId
          memoryLevel := env.memLevel }) := rfl

/-- C6 counterexample: with empty `fragOffsets` the call is not a
no-op on the `UpdelRoll`: starting from a fresh roll with a null
catalog, the returned roll differs — its catalog is now the call's
catalog pointer. -/
theorem updateColumn_empty_offsets_changes_roll :
    (updateColumn envInt [] [] [5] ⟨false, 0, 0, 1⟩ roll0).2 ≠ roll0 ∧
    (updateColumn envInt [] [] [5] ⟨false, 0, 0, 1⟩ roll0).2.catalog =
      some 7 ∧
    roll0.catalog = none ∧
    (updateColumn envInt [] [] [5] ⟨false, 0, 0, 1⟩ roll0).1 =
      .ok ([5], ⟨false, 0, 0, 1⟩) :=
  ⟨by decide, rfl, rfl, rfl⟩

/-- C7 (amended): for every non-string LHS type, a `NullableString`
RHS that is null or the empty string makes the Chunk Mutator write the
null sentinel of the LHS type at the target offset and set this
worker's hasNull accumulator to true.  (For a dictionary-encoded
string LHS the code instead dictionary-encodes the empty string — see
the counterexample.) -/
theorem updateOneRow_null_string (lhs : LhsType) (rhs : RhsType)
    (rhsDict : Option (Int → String)) (lhsDict : String → Int)
    (buf : List Int) (roffs : Nat) (s : Option String) (acc : ThreadAcc)
    (hlhs : lhs ≠ .dictStr) (hs : s.getD "" = "") :
    updateOneRow lhs rhs rhsDict lhsDict buf roffs (.nstr s) acc =
      .ok (buf.set roffs (nullSentinel lhs), { acc with hasNull := true }) := by
  cases lhs with
  | dictStr => exact absurd rfl hlhs
  | integral w =>
    cases hrs : rhs.isString <;> simp [updateOneRow, hrs, hs]
  | decimalT w dim scale =>
    cases hrs : rhs.isString <;> simp [updateOneRow, hrs, hs]

theorem updateOneRow_null_string_witness :
    ((LhsType.integral 4 ≠ .dictStr) ∧
      (Option.getD (α := String) none "") = "") ∧
    updateOneRow (.integral 4) ⟨false, false, 0, 0⟩ none (fun _ => 7)
      [5] 0 (.nstr none) ⟨false, 3, 4⟩ =
      .ok ([nullSentinel (.integral 4)], ⟨true, 3, 4⟩) :=
  ⟨⟨by decide, rfl⟩,
    updateOneRow_null_string (.integral 4) ⟨false, false, 0, 0⟩ none
      (fun _ => 7) [5] 0 none ⟨false, 3, 4⟩ (by decide) rfl⟩

/-- C7 counterexample: for a dictionary-encoded string LHS, a null
`NullableString` RHS is NOT written as a null sentinel with hasNull
set: the string branch runs first, the empty string is `getOrAdd`-ed
into the dictionary (index 7 in this concrete dictionary) and that
index is stored, and the worker's hasNull accumulator stays false. -/
theorem updateOneRow_null_string_dictStr_cex :
    updateOneRow .dictStr ⟨false, false, 0, 0⟩ none (fun _ => 7) [5] 0
      (.nstr none) initThreadAcc = .ok ([7], ⟨false, 7, 7⟩) ∧
    (7 : Int) ≠ nullSentinel .dictStr ∧
    (false : Bool) ≠ true :=
  ⟨by decide, by decide, by decide⟩

/-- C8: for an int64 RHS written into a decimal LHS column (a
single-row call; the per-row check is identical for every row) that
passes the decimal-range validator, the updater re-reads the stored
scaled value after the write and throws a data-conversion-overflow
exception exactly when the re-read value's sign differs from the
written value's sign; the message contains the source value and the
RHS and LHS `(dimension, scale)` precisions, and on such a throw the
shadow chunk metadata (and shadow tuple counts) of the statement are
not installed. -/
theorem updateColumn_decimal_sign_flip (env : UpdateEnv)
    (w dim scale : Nat) (hlhs : env.lhs = .decimalT w dim scale)
    (hrs : env.rhs.isString = false) (hrd : env.rhs.isDecimal = true)
    (v : Int) (hval : -(10 ^ dim : Int) < v ∧ v < 10 ^ dim)
    (roffs : Nat) (buf : List Int) (hro : roffs < buf.length)
    (enc : EncoderS) (roll : UpdelRollS) :
    (((0 ≤ v ∧ put_scalar_i64 (.decimalT w dim scale) env.rhs.scale v < 0) ∨
        (v < 0 ∧ 0 ≤ put_scalar_i64 (.decimalT w dim scale) env.rhs.scale v)) →
      (updateColumn env [roffs] [.i64 v] buf enc roll).1 =
        .thrown ("Data conversion overflow on " ++ toString v ++
          " from DECIMAL(" ++ toString env.rhs.dim ++ ", " ++
          toString env.rhs.scale ++ ") to (" ++ toString dim ++ ", " ++
          toString scale ++ ")") ∧
      (updateColumn env [roffs] [.i64 v] buf enc roll).2.chunkMetadata =
        roll.chunkMetadata ∧
      (updateColumn env [roffs] [.i64 v] buf enc roll).2.numTuples =
        roll.numTuples) ∧
    (¬((0 ≤ v ∧ put_scalar_i64 (.decimalT w dim scale) env.rhs.scale v < 0) ∨
        (v < 0 ∧ 0 ≤ put_scalar_i64 (.decimalT w dim scale) env.rhs.scale v)) →
      ∃ buf' enc',
        (updateColumn env [roffs] [.i64 v] buf enc roll).1 =
          .ok (buf', enc')) := by
  set stored := put_scalar_i64 (.decimalT w dim scale) env.rhs.scale v
    with hstored
  set msg := "Data conversion overflow on " ++ toString v ++
    " from DECIMAL(" ++ toString env.rhs.dim ++ ", " ++
    toString env.rhs.scale ++ ") to (" ++ toString dim ++ ", " ++
    toString scale ++ ")" with hmsg
  have hone : ∀ (accv : ThreadAcc),
      updateOneRow env.lhs env.rhs env.rhsDict env.lhsDict buf roffs
        (.i64 v) accv =
        (if decide (0 ≤ v) = decide (stored < 0) then .thrown msg
        else .ok (buf.set roffs stored,
          { accv with
            minI := (set_minmax accv.minI accv.maxI stored).1
            maxI := (set_minmax accv.minI accv.maxI stored).2 })) := by
    intro accv
    rw [updateOneRow.eq_def, hlhs]
    have hvalid : decimalOverflowValidate (.decimalT w dim scale) v = true := by
      simp only [decimalOverflowValidate, decide_eq_true_eq]
      exact hval
    rw [hrs]
    rw [if_neg (show ¬(false = true) from by simp)]
    dsimp only
    simp only [hvalid, getD_set_self hro, ← hstored, ← hmsg,
      eq_self_iff_true, if_true]
  have hstep : ∀ (segsz : Nat) (accs : List ThreadAcc),
      updateRowStep env [roffs] [.i64 v] segsz (.ok (buf, accs)) 0 =
        (if decide (0 ≤ v) = decide (stored < 0) then .thrown msg
        else .ok (buf.set roffs stored,
          accs.set 0
            { accs.getD 0 initThreadAcc with
              minI := (set_minmax (accs.getD 0 initThreadAcc).minI
                (accs.getD 0 initThreadAcc).maxI stored).1
              maxI := (set_minmax (accs.getD 0 initThreadAcc).minI
                (accs.getD 0 initThreadAcc).maxI stored).2 })) := by
    intro segsz accs
    rw [updateRowStep]
    simp only [Nat.zero_div]
    have hrv : resolvedValue [STV.i64 v] 0 = .i64 v := rfl
    have hfo : ([roffs] : List Nat).getD 0 0 = roffs := rfl
    rw [hrv, hfo, hone]
    by_cases hsign : decide (0 ≤ v) = decide (stored < 0)
    · rw [if_pos hsign, if_pos hsign]
    · rw [if_neg hsign, if_neg hsign]
  have hmetaEq : ∀ (hn : Bool) (mx mn : Int) (e : EncoderS) (bl : Nat)
      (r : UpdelRollS),
      updateColumnMetadata env hn mx mn e bl r =
        .ok ((e.updateStats mx hn).updateStats mn hn,
          metadataEmit env ((e.updateStats mx hn).updateStats mn hn) bl
            (metadataSnapshot env r)) := by
    intro hn mx mn e bl r
    rw [updateColumnMetadata, hlhs]
    simp only [hrd, if_true]
  have hlen1 : ¬([roffs] : List Nat).length = 0 := by simp
  have harity : ¬¬(([roffs] : List Nat).length = [STV.i64 v].length ∨
      [STV.i64 v].length = 1) := by simp
  constructor
  · intro hflip
    have hsign : decide (0 ≤ v) = decide (stored < 0) := by
      rcases hflip with ⟨h1, h2⟩ | ⟨h1, h2⟩
      · rw [decide_eq_true h1, decide_eq_true h2]
      · rw [decide_eq_false (not_le.mpr h1), decide_eq_false (not_lt.mpr h2)]
    have hthrown : (updateColumn env [roffs] [.i64 v] buf enc roll).1 =
        .thrown msg := by
      rw [updateColumn, if_neg hlen1, if_neg harity]
      simp only [show List.range ([roffs] : List Nat).length = [0] from rfl,
        List.foldl_cons, List.foldl_nil]
      rw [hstep, if_pos hsign]
    refine ⟨hthrown, ?_, ?_⟩
    · rw [updateColumn, if_neg hlen1, if_neg harity]
      simp only [show List.range ([roffs] : List Nat).length = [0] from rfl,
        List.foldl_cons, List.foldl_nil]
      rw [hstep, if_pos hsign]
    · rw [updateColumn, if_neg hlen1, if_neg harity]
      simp only [show List.range ([roffs] : List Nat).length = [0] from rfl,
        List.foldl_cons, List.foldl_nil]
      rw [hstep, if_pos hsign]
  · intro hflip
    have hsign : ¬(decide (0 ≤ v) = decide (stored < 0)) := by
      intro hc
      rcases Decidable.em (0 ≤ v) with h1 | h1
      · rw [decide_eq_true h1] at hc
        exact hflip (Or.inl ⟨h1, of_decide_eq_true hc.symm⟩)
      · rw [decide_eq_false h1] at hc
        have h2 : ¬(stored < 0) := by
          intro h3
          rw [decide_eq_true h3] at hc
          exact Bool.false_ne_true hc
        exact hflip (Or.inr ⟨not_le.mp h1, not_lt.mp h2⟩)
    rw [updateColumn, if_neg hlen1, if_neg harity]
    simp only [show List.range ([roffs] : List Nat).length = [0] from rfl,
      List.foldl_cons, List.foldl_nil]
    rw [hstep, if_neg hsign]
    dsimp only
    rw [hmetaEq]
    exact ⟨_, _, rfl⟩

/-- A concrete call environment: `DECIMAL(18, 5)` LHS column stored in
8 bytes, `DECIMAL(18, 0)` RHS type. -/
def envDec : UpdateEnv :=
  ⟨2, 7, 1, 2, 2, 9, 3, .decimalT 8 18 5, ⟨false, true, 18, 0⟩, none,
    fun _ => 7, 11, .cpu, [], 0⟩

theorem updateColumn_decimal_sign_flip_witness :
    ((-(10 ^ 18 : Int) < 9 * 10 ^ 17 ∧ (9 * 10 ^ 17 : Int) < 10 ^ 18) ∧
      (0 : Nat) < ([0] : List Int).length ∧
      (0 ≤ (9 * 10 ^ 17 : Int) ∧
        put_scalar_i64 (.decimalT 8 18 5) envDec.rhs.scale (9 * 10 ^ 17) < 0)) ∧
    ((updateColumn envDec [0] [.i64 (9 * 10 ^ 17)] [0] ⟨false, 0, 0, 1⟩
        roll0).1 =
      .thrown ("Data conversion overflow on " ++
        toString (9 * 10 ^ 17 : Int) ++ " from DECIMAL(" ++
        toString envDec.rhs.dim ++ ", " ++ toString envDec.rhs.scale ++
        ") to (" ++ toString (18 : Nat) ++ ", " ++ toString (5 : Nat) ++
        ")") ∧
      (updateColumn envDec [0] [.i64 (9 * 10 ^ 17)] [0] ⟨false, 0, 0, 1⟩
        roll0).2.chunkMetadata = roll0.chunkMetadata ∧
      (updateColumn envDec [0] [.i64 (9 * 10 ^ 17)] [0] ⟨false, 0, 0, 1⟩
        roll0).2.numTuples = roll0.numTuples) :=
  ⟨⟨⟨by decide, by decide⟩, by decide, by decide, by decide⟩,
    (updateColumn_decimal_sign_flip envDec 8 18 5 rfl rfl rfl (9 * 10 ^ 17)
      ⟨by decide, by decide⟩ 0 [0] (by decide) ⟨false, 0, 0, 1⟩ roll0).1
      (Or.inl ⟨by decide, by decide⟩)⟩

/-! ### Reduction of the per-thread accumulators (lines 359-374) -/

theorem foldl_or_eq (accs : List ThreadAcc) :
    ∀ b : Bool, accs.foldl (fun h a => h || a.hasNull) b =
      (b || accs.any (·.hasNull)) := by
  induction accs with
  | nil => intro b; simp
  | cons a t ih =>
    intro b
    rw [List.foldl_cons, ih, List.any_cons, Bool.or_assoc]

theorem foldl_min_init_le (accs : List ThreadAcc) :
    ∀ i : Int, accs.foldl (fun m x => min m x.minI) i ≤ i := by
  induction accs with
  | nil => intro i; exact le_refl i
  | cons a t ih =>
    intro i
    exact le_trans (ih (min i a.minI)) (min_le_left _ _)

theorem foldl_min_le (accs : List ThreadAcc) (a : ThreadAcc)
    (ha : a ∈ accs) :
    ∀ i : Int, accs.foldl (fun m x => min m x.minI) i ≤ a.minI := by
  induction accs with
  | nil => exact absurd ha (List.not_mem_nil a)
  | cons x t ih =>
    intro i
    rcases List.mem_cons.mp ha with rfl | hmem
    · exact le_trans (foldl_min_init_le t _) (min_le_right _ _)
    · exact ih hmem _

theorem le_foldl_max_init (accs : List ThreadAcc) :
    ∀ i : Int, i ≤ accs.foldl (fun m x => max m x.maxI) i := by
  induction accs with
  | nil => intro i; exact le_refl i
  | cons a t ih =>
    intro i
    exact le_trans (le_max_left _ _) (ih (max i a.maxI))

theorem le_foldl_max (accs : List ThreadAcc) (a : ThreadAcc)
    (ha : a ∈ accs) :
    ∀ i : Int, a.maxI ≤ accs.foldl (fun m x => max m x.maxI) i := by
  induction accs with
  | nil => exact absurd ha (List.not_mem_nil a)
  | cons x t ih =>
    intro i
    rcases List.mem_cons.mp ha with rfl | hmem
    · exact le_trans (le_max_right _ _) (le_foldl_max_init t _)
    · exact ih hmem _

/-- The string-to-string RHS indirection at the top of the per-row
loop (lines 214-224): with a string RHS, an int64 `ScalarTargetValue`
is an index into the RHS dictionary and is dereferenced through it
(when the descriptor is present; its absence throws before any
write, so the value returned for that case is never consulted). -/
def derefString (rhs : RhsType) (rhsDict : Option (Int → String)) :
    STV → STV
  | .i64 v =>
    if rhs.isString then
      match rhsDict with
      | some getString => .nstr (some (getString v))
      | none => .i64 v
    else .i64 v
  | .nstr s => .nstr s

/-- The scalar one row's mutation folds into its worker's `(min, max)`
statistics cell, read off `updateOneRow` branch for branch: the RHS
int64 for an integral LHS, the stored (rescaled, width-wrapped)
decimal re-read from the chunk for a decimal LHS, the dictionary index
for a dictionary-encoded string LHS; `none` exactly when the mutation
is a `put_null` (a null or empty `NullableString` into a non-string
LHS), which raises the worker's has-null flag instead.  On a variant
whose mutation throws or leaves the embedding the value is never
consulted (`updateOneRow_ok_acc` only speaks about completed rows). -/
def foldedScalar (lhs : LhsType) (rhs : RhsType)
    (rhsDict : Option (Int → String)) (lhsDict : String → Int)
    (sv : STV) : Option Int :=
  match derefString rhs rhsDict sv with
  | .i64 v =>
    match lhs with
    | .integral _ => some v
    | .decimalT w dim scale =>
      some (put_scalar_i64 (.decimalT w dim scale) rhs.scale v)
    | .dictStr => none
  | .nstr s =>
    match lhs with
    | .dictStr => some (lhsDict (s.getD ""))
    | .integral _ => none
    | .decimalT _ _ _ => none

/-- How one completed row updates its worker's accumulator cell: a
folded scalar goes through `set_minmax`, a null write raises the
has-null flag. -/
def accOf (lhs : LhsType) (rhs : RhsType)
    (rhsDict : Option (Int → String)) (lhsDict : String → Int)
    (acc : ThreadAcc) (sv : STV) : ThreadAcc :=
  match foldedScalar lhs rhs rhsDict lhsDict sv with
  | some x =>
    { acc with
      minI := (set_minmax acc.minI acc.maxI x).1
      maxI := (set_minmax acc.minI acc.maxI x).2 }
  | none => { acc with hasNull := true }

theorem accOf_hasNull (lhs : LhsType) (rhs : RhsType)
    (rhsDict : Option (Int → String)) (lhsDict : String → Int)
    (acc : ThreadAcc) (sv : STV) :
    (accOf lhs rhs rhsDict lhsDict acc sv).hasNull =
      (acc.hasNull ||
        (foldedScalar lhs rhs rhsDict lhsDict sv).isNone) := by
  rcases h : foldedScalar lhs rhs rhsDict lhsDict sv with _ | x <;>
    simp [accOf, h]

theorem accOf_minI_le (lhs : LhsType) (rhs : RhsType)
    (rhsDict : Option (Int → String)) (lhsDict : String → Int)
    (acc : ThreadAcc) (sv : STV) :
    (accOf lhs rhs rhsDict lhsDict acc sv).minI ≤ acc.minI := by
  rcases h : foldedScalar lhs rhs rhsDict lhsDict sv with _ | x
  · simp [accOf, h]
  · unfold accOf
    rw [h]
    dsimp only
    simp only [set_minmax]
    split
    · exact le_of_lt (by assumption)
    · exact le_refl _

theorem accOf_maxI_ge (lhs : LhsType) (rhs : RhsType)
    (rhsDict : Option (Int → String)) (lhsDict : String → Int)
    (acc : ThreadAcc) (sv : STV) :
    acc.maxI ≤ (accOf lhs rhs rhsDict lhsDict acc sv).maxI := by
  rcases h : foldedScalar lhs rhs rhsDict lhsDict sv with _ | x
  · simp [accOf, h]
  · unfold accOf
    rw [h]
    dsimp only
    simp only [set_minmax]
    split
    · exact le_of_lt (by assumption)
    · exact le_refl _

theorem accOf_bounds (lhs : LhsType) (rhs : RhsType)
    (rhsDict : Option (Int → String)) (lhsDict : String → Int)
    (acc : ThreadAcc) (sv : STV) (x : Int)
    (h : foldedScalar lhs rhs rhsDict lhsDict sv = some x) :
    (accOf lhs rhs rhsDict lhsDict acc sv).minI ≤ x ∧
      x ≤ (accOf lhs rhs rhsDict lhsDict acc sv).maxI := by
  unfold accOf
  rw [h]
  dsimp only
  constructor
  · simp only [set_minmax]
    split
    · exact le_refl x
    · exact not_lt.mp (by assumption)
  · simp only [set_minmax]
    split
    · exact le_refl x
    · exact not_lt.mp (by assumption)

/-- Inversion of one completed row, with no restriction on the LHS or
RHS type: whenever `updateOneRow` returns `.ok`, the buffer keeps its
length and the worker's cell changes exactly as `accOf` states.
`hro` is the in-chunk bound of the target offset (needed because the
decimal branch re-reads the stored value from the chunk). -/
theorem updateOneRow_ok_acc (lhs : LhsType) (rhs : RhsType)
    (rhsDict : Option (Int → String)) (lhsDict : String → Int)
    (buf : List Int) (roffs : Nat) (sv : STV) (acc : ThreadAcc)
    (buf' : List Int) (acc' : ThreadAcc) (hro : roffs < buf.length)
    (h : updateOneRow lhs rhs rhsDict lhsDict buf roffs sv acc =
      .ok (buf', acc')) :
    buf'.length = buf.length ∧
    acc' = accOf lhs rhs rhsDict lhsDict acc sv := by
  cases hs : rhs.isString with
  | false =>
    rw [updateOneRow.eq_def, hs] at h
    rw [if_neg (show ¬(false = true) from by simp)] at h
    cases sv with
    | i64 v =>
      cases lhs with
      | dictStr => simp at h
      | integral w =>
        dsimp only at h
        rw [show decimalOverflowValidate (.integral w) v = true from rfl,
          if_pos rfl] at h
        cases hd : rhs.isDecimal with
        | true => rw [hd] at h; simp at h
        | false =>
          rw [hd] at h
          simp only [Bool.false_eq_true, if_false, UpdResult.ok.injEq,
            Prod.mk.injEq] at h
          obtain ⟨hb, ha⟩ := h
          refine ⟨by rw [← hb, List.length_set], ?_⟩
          rw [← ha]
          simp [accOf, foldedScalar, derefString, hs]
      | decimalT w dim scale =>
        dsimp only at h
        cases hval : decimalOverflowValidate (.decimalT w dim scale) v with
        | false => rw [hval] at h; simp at h
        | true =>
          rw [hval, if_pos rfl] at h
          by_cases hsign : decide (0 ≤ v) =
              decide ((buf.set roffs
                (put_scalar_i64 (.decimalT w dim scale) rhs.scale v)).getD
                  roffs 0 < 0)
          · rw [if_pos hsign] at h; simp at h
          · rw [if_neg hsign] at h
            simp only [UpdResult.ok.injEq, Prod.mk.injEq] at h
            obtain ⟨hb, ha⟩ := h
            refine ⟨by rw [← hb, List.length_set], ?_⟩
            rw [← ha, getD_set_self hro]
            simp [accOf, foldedScalar, derefString, hs]
    | nstr s =>
      dsimp only at h
      cases lhs with
      | dictStr =>
        dsimp only at h
        simp only [UpdResult.ok.injEq, Prod.mk.injEq] at h
        obtain ⟨hb, ha⟩ := h
        refine ⟨by rw [← hb, List.length_set], ?_⟩
        rw [← ha]
        simp [accOf, foldedScalar, derefString]
      | integral w =>
        dsimp only at h
        by_cases hl : 0 < (s.getD "").length
        · rw [if_pos hl] at h; simp at h
        · rw [if_neg hl] at h
          simp only [UpdResult.ok.injEq, Prod.mk.injEq] at h
          obtain ⟨hb, ha⟩ := h
          refine ⟨by rw [← hb, List.length_set], ?_⟩
          rw [← ha]
          simp [accOf, foldedScalar, derefString]
      | decimalT w dim scale =>
        dsimp only at h
        by_cases hl : 0 < (s.getD "").length
        · rw [if_pos hl] at h; simp at h
        · rw [if_neg hl] at h
          simp only [UpdResult.ok.injEq, Prod.mk.injEq] at h
          obtain ⟨hb, ha⟩ := h
          refine ⟨by rw [← hb, List.length_set], ?_⟩
          rw [← ha]
          simp [accOf, foldedScalar, derefString]
  | true =>
    rw [updateOneRow.eq_def, hs] at h
    rw [if_pos rfl] at h
    cases sv with
    | i64 v =>
      cases rhsDict with
      | none => simp at h
      | some getString =>
        dsimp only at h
        cases lhs with
        | dictStr =>
          dsimp only at h
          simp only [UpdResult.ok.injEq, Prod.mk.injEq] at h
          obtain ⟨hb, ha⟩ := h
          refine ⟨by rw [← hb, List.length_set], ?_⟩
          rw [← ha]
          simp [accOf, foldedScalar, derefString, hs]
        | integral w =>
          dsimp only at h
          by_cases hl : 0 < ((some (getString v)).getD "").length
          · rw [if_pos hl] at h; simp at h
          · rw [if_neg hl] at h
            simp only [UpdResult.ok.injEq, Prod.mk.injEq] at h
            obtain ⟨hb, ha⟩ := h
            refine ⟨by rw [← hb, List.length_set], ?_⟩
            rw [← ha]
            simp [accOf, foldedScalar, derefString, hs]
        | decimalT w dim scale =>
          dsimp only at h
          by_cases hl : 0 < ((some (getString v)).getD "").length
          · rw [if_pos hl] at h; simp at h
          · rw [if_neg hl] at h
            simp only [UpdResult.ok.injEq, Prod.mk.injEq] at h
            obtain ⟨hb, ha⟩ := h
            refine ⟨by rw [← hb, List.length_set], ?_⟩
            rw [← ha]
            simp [accOf, foldedScalar, derefString, hs]
    | nstr s =>
      dsimp only at h
      cases lhs with
      | dictStr =>
        dsimp only at h
        simp only [UpdResult.ok.injEq, Prod.mk.injEq] at h
        obtain ⟨hb, ha⟩ := h
        refine ⟨by rw [← hb, List.length_set], ?_⟩
        rw [← ha]
        simp [accOf, foldedScalar, derefString]
      | integral w =>
        dsimp only at h
        by_cases hl : 0 < (s.getD "").length
        · rw [if_pos hl] at h; simp at h
        · rw [if_neg hl] at h
          simp only [UpdResult.ok.injEq, Prod.mk.injEq] at h
          obtain ⟨hb, ha⟩ := h
          refine ⟨by rw [← hb, List.length_set], ?_⟩
          rw [← ha]
          simp [accOf, foldedScalar, derefString]
      | decimalT w dim scale =>
        dsimp only at h
        by_cases hl : 0 < (s.getD "").length
        · rw [if_pos hl] at h; simp at h
        · rw [if_neg hl] at h
          simp only [UpdResult.ok.injEq, Prod.mk.injEq] at h
          obtain ⟨hb, ha⟩ := h
          refine ⟨by rw [← hb, List.length_set], ?_⟩
          rw [← ha]
          simp [accOf, foldedScalar, derefString]

theorem getD_set_eq {α : Type} (l : List α) (c : Nat) (a d : α)
    (h : c < l.length) : (l.set c a).getD c d = a := by
  rw [List.getD_eq_getElem?_getD, @List.getElem?_set_eq_of_lt _ a c l h]
  rfl

theorem getD_set_ne {α : Type} (l : List α) {c j : Nat} (a d : α)
    (h : c ≠ j) : (l.set c a).getD j d = l.getD j d := by
  rw [List.getD_eq_getElem?_getD, List.getElem?_set_ne h,
    ← List.getD_eq_getElem?_getD]

theorem getD_mem_of_lt {α : Type} (l : List α) (c : Nat) (d : α)
    (h : c < l.length) : l.getD c d ∈ l := by
  rw [List.getD_eq_getElem?_getD, List.getElem?_eq_getElem h]
  exact List.getElem_mem h

theorem any_hasNull_set :
    ∀ (l : List ThreadAcc) (c : Nat) (a : ThreadAcc) (x : Bool),
      c < l.length →
      a.hasNull = ((l.getD c initThreadAcc).hasNull || x) →
      (l.set c a).any (·.hasNull) = (l.any (·.hasNull) || x)
  | [], c, _, _, hc, _ => absurd hc (by simp)
  | h :: t, 0, a, x, _, ha => by
    simp only [List.set_cons_zero, List.any_cons]
    rw [ha, show (h :: t).getD 0 initThreadAcc = h from rfl]
    cases h.hasNull <;> cases x <;> cases ht : t.any (·.hasNull) <;>
      simp [ht]
  | h :: t, c + 1, a, x, hc, ha => by
    simp only [List.set_cons_succ, List.any_cons]
    rw [any_hasNull_set t c a x (by simpa using hc) ha, ← Bool.or_assoc]

theorem foldl_updateRowStep_thrown (env : UpdateEnv) (fo : List Nat)
    (vs : List STV) (segsz : Nat) (m : String) :
    ∀ rs : List Nat,
      rs.foldl (updateRowStep env fo vs segsz) (.thrown m) = .thrown m
  | [] => rfl
  | r :: rs => by
    rw [List.foldl_cons]
    exact foldl_updateRowStep_thrown env fo vs segsz m rs

theorem foldl_updateRowStep_unmodelled (env : UpdateEnv) (fo : List Nat)
    (vs : List STV) (segsz : Nat) :
    ∀ rs : List Nat,
      rs.foldl (updateRowStep env fo vs segsz) .unmodelledFP =
        .unmodelledFP
  | [] => rfl
  | r :: rs => by
    rw [List.foldl_cons]
    exact foldl_updateRowStep_unmodelled env fo vs segsz rs

/-- Invariant of the (sequentialized) parallel row loop, with no
restriction on the column types: whenever the fold over the rows
completes, the chunk buffer and the accumulator vector keep their
lengths, the accumulators' has-null disjunction accumulates exactly
the null writes, each cell's `(min, max)` only widens, and every
folded scalar is bracketed by some cell. -/
theorem updateLoop_stats (env : UpdateEnv) (fo : List Nat)
    (vs : List STV) (segsz : Nat) :
    ∀ (rs : List Nat) (b : List Int) (accs : List ThreadAcc)
      (b' : List Int) (accs' : List ThreadAcc),
      (∀ r ∈ rs, r / segsz < accs.length) →
      (∀ r ∈ rs, fo.getD r 0 < b.length) →
      rs.foldl (updateRowStep env fo vs segsz) (.ok (b, accs)) =
        .ok (b', accs') →
      b'.length = b.length ∧
      accs'.length = accs.length ∧
      accs'.any (·.hasNull) =
        (accs.any (·.hasNull) ||
          rs.any fun r =>
            (foldedScalar env.lhs env.rhs env.rhsDict env.lhsDict
              (resolvedValue vs r)).isNone) ∧
      (∀ j : Nat,
        (accs'.getD j initThreadAcc).minI ≤
          (accs.getD j initThreadAcc).minI ∧
        (accs.getD j initThreadAcc).maxI ≤
          (accs'.getD j initThreadAcc).maxI) ∧
      (∀ r ∈ rs, ∀ x : Int,
        foldedScalar env.lhs env.rhs env.rhsDict env.lhsDict
          (resolvedValue vs r) = some x →
        ∃ a ∈ accs', a.minI ≤ x ∧ x ≤ a.maxI)
  | [], b, accs, b', accs', _, _, hfold => by
    simp only [List.foldl_nil, UpdResult.ok.injEq, Prod.mk.injEq] at hfold
    obtain ⟨rfl, rfl⟩ := hfold
    refine ⟨rfl, rfl, by simp, fun j => ⟨le_refl _, le_refl _⟩, ?_⟩
    intro r hr
    exact absurd hr (List.not_mem_nil r)
  | r :: rs, b, accs, b', accs', hseg, hoffs, hfold => by
    rw [List.foldl_cons] at hfold
    have hc : r / segsz < accs.length := hseg r (by simp)
    cases hone : updateOneRow env.lhs env.rhs env.rhsDict env.lhsDict b
        (fo.getD r 0) (resolvedValue vs r)
        (accs.getD (r / segsz) initThreadAcc) with
    | thrown m =>
      rw [show updateRowStep env fo vs segsz (.ok (b, accs)) r =
          .thrown m from by rw [updateRowStep, hone],
        foldl_updateRowStep_thrown] at hfold
      exact absurd hfold (by simp)
    | unmodelledFP =>
      rw [show updateRowStep env fo vs segsz (.ok (b, accs)) r =
          .unmodelledFP from by rw [updateRowStep, hone],
        foldl_updateRowStep_unmodelled] at hfold
      exact absurd hfold (by simp)
    | ok pr =>
      obtain ⟨b₁, acc₁⟩ := pr
      rw [show updateRowStep env fo vs segsz (.ok (b, accs)) r =
          .ok (b₁, accs.set (r / segsz) acc₁) from by
        rw [updateRowStep, hone]] at hfold
      obtain ⟨hb₁len, hacc₁⟩ := updateOneRow_ok_acc env.lhs env.rhs
        env.rhsDict env.lhsDict b (fo.getD r 0) (resolvedValue vs r)
        (accs.getD (r / segsz) initThreadAcc) b₁ acc₁
        (hoffs r (by simp)) hone
      obtain ⟨hblen, hlen, hany, hevol, hbound⟩ :=
        updateLoop_stats env fo vs segsz rs b₁
          (accs.set (r / segsz) acc₁) b' accs'
          (fun x hx => by rw [List.length_set]; exact hseg x (by simp [hx]))
          (fun x hx => by rw [hb₁len]; exact hoffs x (by simp [hx]))
          hfold
      refine ⟨hblen.trans hb₁len, by rw [hlen, List.length_set], ?_, ?_, ?_⟩
      · rw [hany, any_hasNull_set accs (r / segsz) acc₁
            ((foldedScalar env.lhs env.rhs env.rhsDict env.lhsDict
              (resolvedValue vs r)).isNone) hc
            (by rw [hacc₁]; exact accOf_hasNull _ _ _ _ _ _),
          List.any_cons, Bool.or_assoc]
      · intro j
        have he := hevol j
        by_cases hj : r / segsz = j
        · subst hj
          rw [getD_set_eq _ _ _ _ hc, hacc₁] at he
          exact ⟨le_trans he.1 (accOf_minI_le _ _ _ _ _ _),
            le_trans (accOf_maxI_ge _ _ _ _ _ _) he.2⟩
        · rw [getD_set_ne _ _ _ hj] at he
          exact he
      · intro y hy x hx
        rcases List.mem_cons.mp hy with rfl | hmem
        · -- the row just processed: its cell brackets x, and only widens
          have he := hevol (y / segsz)
          rw [getD_set_eq _ _ _ _ hc, hacc₁] at he
          have hb := accOf_bounds env.lhs env.rhs env.rhsDict env.lhsDict
            (accs.getD (y / segsz) initThreadAcc) (resolvedValue vs y) x hx
          refine ⟨accs'.getD (y / segsz) initThreadAcc, ?_, ?_, ?_⟩
          · exact getD_mem_of_lt _ _ _
              (by rw [hlen, List.length_set]; exact hc)
          · exact le_trans he.1 hb.1
          · exact le_trans hb.2 he.2
        · exact hbound y hmem x hx

/-- Inversion of `updateColumnMetadata` on a completed call: the
emitted encoder is the chunk reduction folded twice into the previous
stats, and the roll carries the emission over the snapshot. -/
theorem updateColumnMetadata_ok_inv (env : UpdateEnv) (hn : Bool)
    (mx mn : Int) (e : EncoderS) (bl : Nat) (r : UpdelRollS)
    (e' : EncoderS) (r' : UpdelRollS)
    (h : updateColumnMetadata env hn mx mn e bl r = .ok (e', r')) :
    e' = (e.updateStats mx hn).updateStats mn hn ∧
    r' = metadataEmit env ((e.updateStats mx hn).updateStats mn hn) bl
      (metadataSnapshot env r) := by
  cases hl : env.lhs with
  | integral w =>
    rw [updateColumnMetadata, hl] at h
    dsimp only at h
    simp only [UpdResult.ok.injEq, Prod.mk.injEq] at h
    exact ⟨h.1.symm, h.2.symm⟩
  | decimalT w dim scale =>
    rw [updateColumnMetadata, hl] at h
    dsimp only at h
    cases hd : env.rhs.isDecimal with
    | false => rw [hd] at h; simp at h
    | true =>
      rw [hd, if_pos rfl] at h
      simp only [UpdResult.ok.injEq, Prod.mk.injEq] at h
      exact ⟨h.1.symm, h.2.symm⟩
  | dictStr =>
    rw [updateColumnMetadata, hl] at h
    dsimp only at h
    simp only [UpdResult.ok.injEq, Prod.mk.injEq] at h
    exact ⟨h.1.symm, h.2.symm⟩

theorem getAssoc_setAssoc_self {α β : Type} [DecidableEq α] :
    ∀ (l : List (α × β)) (k : α) (v : β),
      getAssoc (setAssoc l k v) k = some v
  | [], k, v => by simp [setAssoc, getAssoc]
  | (k', v') :: t, k, v => by
    by_cases h : k' = k
    · simp [setAssoc, getAssoc, h]
    · simp only [setAssoc, if_neg h, getAssoc, if_neg h]
      exact getAssoc_setAssoc_self t k v

theorem emittedMeta_metadataEmit (env : UpdateEnv) (enc' : EncoderS)
    (bl : Nat) (r : UpdelRollS) :
    emittedMeta (metadataEmit env enc' bl r) (env.tableId, env.fragmentId)
      env.columnId = some (enc'.getMetadata bl) := by
  unfold emittedMeta metadataEmit
  dsimp only
  rw [getAssoc_setAssoc_self, Option.some_bind, getAssoc_setAssoc_self]

theorem any_hasNull_replicate (n : Nat) :
    (List.replicate n initThreadAcc).any (·.hasNull) = false := by
  induction n with
  | zero => rfl
  | succ m ih => simp [List.replicate_succ, ih, initThreadAcc]

theorem div_segsz_lt (nrow ncore r : Nat) (hnc : 0 < ncore)
    (hr : r < nrow) : r / ((nrow + ncore - 1) / ncore) < ncore := by
  have hmod := Nat.div_add_mod (nrow + ncore - 1) ncore
  have hmodlt : (nrow + ncore - 1) % ncore < ncore :=
    Nat.mod_lt _ hnc
  have hs1 : 1 ≤ (nrow + ncore - 1) / ncore := by
    rw [Nat.le_div_iff_mul_le hnc]
    omega
  have hle : nrow ≤ ncore * ((nrow + ncore - 1) / ncore) := by omega
  rw [Nat.div_lt_iff_lt_mul (by omega : 0 < (nrow + ncore - 1) / ncore)]
  calc r < nrow := hr
    _ ≤ ncore * ((nrow + ncore - 1) / ncore) := hle
    _ = ncore * ((nrow + ncore - 1) / ncore) := rfl

/-- C3 (amended): for every successful `updateColumn` call with
non-empty offsets — any embedded LHS family, so integral, decimal and
dictionary-encoded-string columns alike — the metadata slot the call
installs for the column carries the updated encoder's stats; the
emitted `hasNull` flag is the OR of the encoder's previous `hasNull`
with whether at least one row's mutation wrote a null (true IF a null
was written, but not only then — see the counterexample); and the
emitted `(min, max)` bracket the scalar every row folded into the
chunk statistics (the RHS int64 for an integral LHS, the stored
rescaled decimal for a decimal LHS, the dictionary index for a string
LHS).  `hoffs` is the chunk well-formedness of `frag_offsets` (every
updated row lies inside the chunk buffer) and `hnc` the positivity of
`cpu_threads()`. -/
theorem updateColumn_stats_bracket (env : UpdateEnv) (fo : List Nat)
    (vs : List STV) (buf : List Int) (enc : EncoderS) (roll : UpdelRollS)
    (b' : List Int) (enc' : EncoderS) (roll' : UpdelRollS)
    (hfo : fo.length ≠ 0) (hnc : 0 < env.ncore)
    (hoffs : ∀ r, r < fo.length → fo.getD r 0 < buf.length)
    (hok : updateColumn env fo vs buf enc roll = (.ok (b', enc'), roll')) :
    emittedMeta roll' (env.tableId, env.fragmentId) env.columnId =
      some (enc'.getMetadata b'.length) ∧
    enc'.hasNull = (enc.hasNull ||
      (List.range fo.length).any fun r =>
        (foldedScalar env.lhs env.rhs env.rhsDict env.lhsDict
          (resolvedValue vs r)).isNone) ∧
    (∀ r, r < fo.length → ∀ x : Int,
      foldedScalar env.lhs env.rhs env.rhsDict env.lhsDict
        (resolvedValue vs r) = some x →
      enc'.minI ≤ x ∧ x ≤ enc'.maxI) := by
  by_cases har : fo.length = vs.length ∨ vs.length = 1
  case neg =>
    rw [updateColumn, if_neg hfo, if_pos har] at hok
    simp at hok
  case pos =>
    rw [updateColumn, if_neg hfo, if_neg (not_not_intro har)] at hok
    dsimp only at hok
    split at hok
    next m heq => simp at hok
    next heq => simp at hok
    next bb accs' heq =>
      split at hok
      next e₂ r₂ heq₂ =>
        simp only [Prod.mk.injEq, UpdResult.ok.injEq] at hok
        obtain ⟨⟨rfl, rfl⟩, rfl⟩ := hok
        obtain ⟨he', hr'⟩ := updateColumnMetadata_ok_inv env _ _ _ enc _ _
          _ _ heq₂
        obtain ⟨hblen, hlen, hany, hevol, hbound⟩ :=
          updateLoop_stats env fo vs ((fo.length + env.ncore - 1) / env.ncore)
            (List.range fo.length) buf
            (List.replicate env.ncore initThreadAcc) bb accs'
            (fun r hr => by
              rw [List.length_replicate]
              exact div_segsz_lt fo.length env.ncore r hnc
                (List.mem_range.mp hr))
            (fun r hr => hoffs r (List.mem_range.mp hr)) heq
        refine ⟨?_, ?_, ?_⟩
        · rw [hr', ← he']
          exact emittedMeta_metadataEmit env _ _ _
        · rw [he']
          simp only [EncoderS.updateStats]
          rw [foldl_or_eq, hany, any_hasNull_replicate]
          cases enc.hasNull <;> cases (List.range fo.length).any
            (fun r => (foldedScalar env.lhs env.rhs env.rhsDict env.lhsDict
              (resolvedValue vs r)).isNone) <;> rfl
        · intro r hr x hx
          obtain ⟨a, ha, h1, h2⟩ := hbound r (List.mem_range.mpr hr) x hx
          rw [he']
          constructor
          · show min (min enc.minI _) _ ≤ x
            exact le_trans (min_le_right _ _)
              (le_trans (foldl_min_le accs' a ha _) h1)
          · show x ≤ max (max enc.maxI _) _
            exact le_trans h2 (le_trans (le_foldl_max accs' a ha _)
              (le_trans (le_max_right enc.maxI _) (le_max_left _ _)))
      next m heq₂ => simp at hok
      next heq₂ => simp at hok

/-- C3 counterexample: a call that writes the single non-null int64
value 7 into an integer column whose encoder already has
`hasNull = true` from earlier data.  The emitted shadow metadata still
has `hasNull = true` (`Encoder::updateStats` widens the prior stats),
yet no value written by this call was null — the claimed "if and only
if" fails in the only-if direction. -/
theorem updateColumn_stats_hasNull_cex :
    (emittedMeta (updateColumn envInt [0] [.i64 7] [0] ⟨true, 0, 10, 1⟩
        roll0).2 (envInt.tableId, envInt.fragmentId) envInt.columnId).map
      (·.hasNull) = some true ∧
    ([.i64 7] : List STV).any (isNullWrite envInt.lhs) = false := by
  exact ⟨by decide, by decide⟩

theorem updateColumn_stats_bracket_witness :
    (([0, 1] : List Nat).length ≠ 0 ∧ 0 < envInt.ncore ∧
      (∀ r, r < ([0, 1] : List Nat).length →
        ([0, 1] : List Nat).getD r 0 < ([0, 0] : List Int).length) ∧
      updateColumn envInt [0, 1] [.i64 7] [0, 0] ⟨false, 5, 5, 2⟩ roll0 =
        (.ok ([7, 7], ⟨false, 5, 7, 2⟩),
          ⟨some 7, 2, .cpu, [11], [[1, 2, 9, 3]],
            [((2, 3), [(9, ⟨2, 2, 5, 7, false⟩)])], [((2, 3), 0)]⟩)) ∧
    (emittedMeta
        (⟨some 7, 2, .cpu, [11], [[1, 2, 9, 3]],
          [((2, 3), [(9, ⟨2, 2, 5, 7, false⟩)])],
          [((2, 3), 0)]⟩ : UpdelRollS)
        (envInt.tableId, envInt.fragmentId) envInt.columnId =
      some ((⟨false, 5, 7, 2⟩ : EncoderS).getMetadata
        ([7, 7] : List Int).length) ∧
      (⟨false, 5, 7, 2⟩ : EncoderS).hasNull =
        ((⟨false, 5, 5, 2⟩ : EncoderS).hasNull ||
          (List.range ([0, 1] : List Nat).length).any fun r =>
            (foldedScalar envInt.lhs envInt.rhs envInt.rhsDict
              envInt.lhsDict (resolvedValue [.i64 7] r)).isNone) ∧
      (∀ r, r < ([0, 1] : List Nat).length → ∀ x : Int,
        foldedScalar envInt.lhs envInt.rhs envInt.rhsDict envInt.lhsDict
          (resolvedValue [.i64 7] r) = some x →
        (⟨false, 5, 7, 2⟩ : EncoderS).minI ≤ x ∧
          x ≤ (⟨false, 5, 7, 2⟩ : EncoderS).maxI)) :=
  ⟨⟨by decide, by decide, by decide, by decide⟩,
    updateColumn_stats_bracket envInt [0, 1] [.i64 7] [0, 0]
      ⟨false, 5, 5, 2⟩ roll0 [7, 7] ⟨false, 5, 7, 2⟩
      ⟨some 7, 2, .cpu, [11], [[1, 2, 9, 3]],
        [((2, 3), [(9, ⟨2, 2, 5, 7, false⟩)])], [((2, 3), 0)]⟩
      (by decide) (by decide) (by decide) (by decide)⟩

/-! ## `UpdelRoll::commitUpdate` (lines 766-788) and
`InsertOrderFragmenter::updateMetadata` (lines 434-456)

The world state the commit acts on: the checkpoint log, the fragments
(keyed by `MetaDataKey`), and the chunk keys resident at the GPU
level.  The fragmenter's write lock makes the publication atomic; the
sequential model renders the whole commit as one atomic step. -/

/-- The publication-relevant state of one fragment. -/
structure FragmentInfoS where
  chunkMetadataMap : List (Nat × ChunkMetaS)
  shadowChunkMetadataMap : List (Nat × ChunkMetaS)
  physicalNumTuples : Nat
  shadowNumTuples : Nat
deriving Repr, DecidableEq

structure CommitWorld where
  checkpoints : List Int
  fragments : List (MetaKey × FragmentInfoS)
  gpuChunks : List ChunkKey
deriving Repr, DecidableEq

/-- `InsertOrderFragmenter::updateMetadata` (lines 434-456): if the
roll holds a shadow entry for this key, publish it — the shadow
chunk-metadata map goes into both `shadowChunkMetadataMap` and the
live `chunkMetadataMap`, the shadow tuple count (read with
`std::map::operator[]` semantics, default 0) into both
`shadowNumTuples` and the physical tuple count. -/
def updateMetadata (key : MetaKey) (roll : UpdelRollS)
    (fi : FragmentInfoS) : FragmentInfoS :=
  match getAssoc roll.chunkMetadata key with
  | none => fi
  | some cm =>
    let nt := (getAssoc roll.numTuples key).getD 0
    ⟨cm, cm, nt, nt⟩

/-- `UpdelRoll::commitUpdate` (lines 766-788): a null catalog is a
no-op; otherwise checkpoint the logical table when the table's
persistence level is disk-backed, publish every fragment with a
shadow entry through `updateMetadata`, clear `dirtyChunks`, and — if
the statement did not run at the GPU level — delete from the GPU level
every chunk one of the dirty `ChunkKey`s is a prefix of
(`deleteChunksWithPrefix`). -/
def commitUpdate (persistenceLevel : MemLevel) (w : CommitWorld)
    (roll : UpdelRollS) : CommitWorld × UpdelRollS :=
  match roll.catalog with
  | none => (w, roll)
  | some _ =>
    let w₁ :=
      if persistenceLevel = .disk then
        { w with checkpoints := w.checkpoints ++ [roll.logicalTableId] }
      else w
    let w₂ :=
      { w₁ with
        fragments := w₁.fragments.map fun p =>
          (p.1, updateMetadata p.1 roll p.2) }
    let roll' := { roll with dirtyChunks := [] }
    let w₃ :=
      if roll.memoryLevel ≠ .gpu then
        { w₂ with
          gpuChunks := w₂.gpuChunks.filter fun ck =>
            !(roll.dirtyChunkeys.any fun p => p.isPrefixOf ck) }
      else w₂
    (w₃, roll')

/-- C9: for every `UpdelRoll` with a non-null catalog, `commitUpdate`
checkpoints the logical table iff the table's persistence level is
disk-backed; publishes every `(td, fragment)` shadow entry — a
fragment with shadow map `cm` and shadow count `nt` ends with both
metadata maps equal to `cm` and both tuple counts equal to `nt`, and
fragments without a shadow entry are unchanged; then clears
`dirtyChunks` (leaving the rest of the roll as it was); and finally a
chunk key survives at the GPU level iff it was there and either the
transaction's memory level is GPU or no dirty chunk key is a prefix of
it. -/
theorem commitUpdate_correct (persistenceLevel : MemLevel)
    (w : CommitWorld) (roll : UpdelRollS) (c : Int)
    (hcat : roll.catalog = some c) (res : CommitWorld × UpdelRollS)
    (hres : res = commitUpdate persistenceLevel w roll) :
    res.1.checkpoints =
      (if persistenceLevel = .disk then
        w.checkpoints ++ [roll.logicalTableId]
      else w.checkpoints) ∧
    (∀ k fi, (k, fi) ∈ w.fragments →
      ∀ cm, getAssoc roll.chunkMetadata k = some cm →
        (k, (⟨cm, cm, (getAssoc roll.numTuples k).getD 0,
          (getAssoc roll.numTuples k).getD 0⟩ : FragmentInfoS)) ∈
          res.1.fragments) ∧
    (∀ k fi, (k, fi) ∈ w.fragments →
      getAssoc roll.chunkMetadata k = none → (k, fi) ∈ res.1.fragments) ∧
    res.2 = { roll with dirtyChunks := [] } ∧
    (∀ ck, ck ∈ res.1.gpuChunks ↔
      ck ∈ w.gpuChunks ∧ (roll.memoryLevel = .gpu ∨
        ∀ p ∈ roll.dirtyChunkeys, ¬(p.isPrefixOf ck = true))) := by
  have hcu : commitUpdate persistenceLevel w roll =
      (if roll.memoryLevel ≠ .gpu then
        { checkpoints :=
            (if persistenceLevel = .disk then
              w.checkpoints ++ [roll.logicalTableId]
            else w.checkpoints)
          fragments := w.fragments.map fun p =>
            (p.1, updateMetadata p.1 roll p.2)
          gpuChunks := w.gpuChunks.filter fun ck =>
            !(roll.dirtyChunkeys.any fun p => p.isPrefixOf ck) }
      else
        { checkpoints :=
            (if persistenceLevel = .disk then
              w.checkpoints ++ [roll.logicalTableId]
            else w.checkpoints)
          fragments := w.fragments.map fun p =>
            (p.1, updateMetadata p.1 roll p.2)
          gpuChunks := w.gpuChunks },
      { roll with dirtyChunks := [] }) := by
    rw [commitUpdate.eq_def, hcat]
    dsimp only
    by_cases hpl : persistenceLevel = .disk <;>
      by_cases hml : roll.memoryLevel ≠ .gpu <;>
        simp only [hpl, if_pos, if_neg, hml, if_true, if_false]
  rw [hres, hcu]
  by_cases hml : roll.memoryLevel ≠ .gpu
  · rw [if_pos hml]
    dsimp only
    refine ⟨rfl, ?_, ?_, rfl, ?_⟩
    · intro k fi hmem cm hcm
      have hmm : (k, updateMetadata k roll fi) ∈
          w.fragments.map fun p => (p.1, updateMetadata p.1 roll p.2) :=
        List.mem_map_of_mem _ hmem
      rw [show updateMetadata k roll fi =
          ⟨cm, cm, (getAssoc roll.numTuples k).getD 0,
            (getAssoc roll.numTuples k).getD 0⟩ from by
        rw [updateMetadata, hcm]] at hmm
      exact hmm
    · intro k fi hmem hcm
      have hmm : (k, updateMetadata k roll fi) ∈
          w.fragments.map fun p => (p.1, updateMetadata p.1 roll p.2) :=
        List.mem_map_of_mem _ hmem
      rw [show updateMetadata k roll fi = fi from by
        rw [updateMetadata, hcm]] at hmm
      exact hmm
    · intro ck
      rw [List.mem_filter]
      constructor
      · rintro ⟨h1, h2⟩
        refine ⟨h1, Or.inr ?_⟩
        intro p hp hpre
        rw [Bool.not_eq_true', List.any_eq_false] at h2
        exact absurd hpre (by simpa using h2 p hp)
      · rintro ⟨h1, h2 | h2⟩
        · exact absurd h2 (by simpa using hml)
        · refine ⟨h1, ?_⟩
          rw [Bool.not_eq_true', List.any_eq_false]
          intro p hp
          simpa using h2 p hp
  · rw [if_neg hml]
    dsimp only
    refine ⟨rfl, ?_, ?_, rfl, ?_⟩
    · intro k fi hmem cm hcm
      have hmm : (k, updateMetadata k roll fi) ∈
          w.fragments.map fun p => (p.1, updateMetadata p.1 roll p.2) :=
        List.mem_map_of_mem _ hmem
      rw [show updateMetadata k roll fi =
          ⟨cm, cm, (getAssoc roll.numTuples k).getD 0,
            (getAssoc roll.numTuples k).getD 0⟩ from by
        rw [updateMetadata, hcm]] at hmm
      exact hmm
    · intro k fi hmem hcm
      have hmm : (k, updateMetadata k roll fi) ∈
          w.fragments.map fun p => (p.1, updateMetadata p.1 roll p.2) :=
        List.mem_map_of_mem _ hmem
      rw [show updateMetadata k roll fi = fi from by
        rw [updateMetadata, hcm]] at hmm
      exact hmm
    · intro ck
      have hgpu : roll.memoryLevel = .gpu := not_not.mp hml
      exact ⟨fun h => ⟨h, Or.inl hgpu⟩, fun h => h.1⟩

theorem commitUpdate_correct_witness :
    ((⟨some 7, 42, .cpu, [3], [[1, 2]], [((2, 3), [(9, ⟨8, 1, 5, 5, false⟩)])],
        [((2, 3), 1)]⟩ : UpdelRollS).catalog = some 7 ∧
      commitUpdate .disk
        ⟨[], [((2, 3), ⟨[], [], 4, 4⟩)], [[1, 2, 9, 3], [5, 6, 7, 8]]⟩
        ⟨some 7, 42, .cpu, [3], [[1, 2]], [((2, 3), [(9, ⟨8, 1, 5, 5, false⟩)])],
          [((2, 3), 1)]⟩ =
        commitUpdate .disk
          ⟨[], [((2, 3), ⟨[], [], 4, 4⟩)], [[1, 2, 9, 3], [5, 6, 7, 8]]⟩
          ⟨some 7, 42, .cpu, [3], [[1, 2]],
            [((2, 3), [(9, ⟨8, 1, 5, 5, false⟩)])], [((2, 3), 1)]⟩) ∧
    ((commitUpdate .disk
        ⟨[], [((2, 3), ⟨[], [], 4, 4⟩)], [[1, 2, 9, 3], [5, 6, 7, 8]]⟩
        ⟨some 7, 42, .cpu, [3], [[1, 2]], [((2, 3), [(9, ⟨8, 1, 5, 5, false⟩)])],
          [((2, 3), 1)]⟩).1.checkpoints = [42] ∧
      (commitUpdate .disk
        ⟨[], [((2, 3), ⟨[], [], 4, 4⟩)], [[1, 2, 9, 3], [5, 6, 7, 8]]⟩
        ⟨some 7, 42, .cpu, [3], [[1, 2]], [((2, 3), [(9, ⟨8, 1, 5, 5, false⟩)])],
          [((2, 3), 1)]⟩).1.fragments =
        [((2, 3), ⟨[(9, ⟨8, 1, 5, 5, false⟩)], [(9, ⟨8, 1, 5, 5, false⟩)],
          1, 1⟩)] ∧
      (commitUpdate .disk
        ⟨[], [((2, 3), ⟨[], [], 4, 4⟩)], [[1, 2, 9, 3], [5, 6, 7, 8]]⟩
        ⟨some 7, 42, .cpu, [3], [[1, 2]], [((2, 3), [(9, ⟨8, 1, 5, 5, false⟩)])],
          [((2, 3), 1)]⟩).1.gpuChunks = [[5, 6, 7, 8]] ∧
      (commitUpdate .disk
        ⟨[], [((2, 3), ⟨[], [], 4, 4⟩)], [[1, 2, 9, 3], [5, 6, 7, 8]]⟩
        ⟨some 7, 42, .cpu, [3], [[1, 2]], [((2, 3), [(9, ⟨8, 1, 5, 5, false⟩)])],
          [((2, 3), 1)]⟩).2.dirtyChunks = []) ∧
    ((commitUpdate .disk
        ⟨[], [((2, 3), ⟨[], [], 4, 4⟩)], [[1, 2, 9, 3], [5, 6, 7, 8]]⟩
        ⟨some 7, 42, .cpu, [3], [[1, 2]], [((2, 3), [(9, ⟨8, 1, 5, 5, false⟩)])],
          [((2, 3), 1)]⟩).1.checkpoints =
      (if (MemLevel.disk = .disk) then ([] : List Int) ++ [42] else [])) :=
  ⟨⟨rfl, rfl⟩, ⟨by decide, by decide, by decide, by decide⟩,
    (commitUpdate_correct .disk
      ⟨[], [((2, 3), ⟨[], [], 4, 4⟩)], [[1, 2, 9, 3], [5, 6, 7, 8]]⟩
      ⟨some 7, 42, .cpu, [3], [[1, 2]], [((2, 3), [(9, ⟨8, 1, 5, 5, false⟩)])],
        [((2, 3), 1)]⟩ 7 rfl _ rfl).1⟩

end UpdelStorage
